import Mathlib

/-!
Formal model of the XML reader/writer core (src/airscan-xml.c).

Strings are modelled as `List Char`; machine integers as `Nat`/`Int` with
explicit `% 2^32` / `% 2^64` where overflow matters.  The external XML
parser (libxml2) is out of scope of the code under verification: a parse
tree node is modelled by `xmlNode`, and where a theorem speaks about
"re-reading a rendered document" the corresponding parse tree is written
out explicitly.  Pointer graphs (sibling/parent links) are rendered as
lists plus an ancestor stack (a zipper), which is observationally the
same navigation structure.
-/

/-- C-locale `isdigit`, as used by the `strtoul` digit scan. -/
def c_isdigit (c : Char) : Bool := 48 ≤ c.toNat && c.toNat ≤ 57

/-- C-locale `isspace` (identical to `g_ascii_isspace`): space, TAB, LF, VT, FF, CR. -/
def c_isspace (c : Char) : Bool := c.toNat = 32 || (9 ≤ c.toNat && c.toNat ≤ 13)

/-- The apostrophe character (code 39). -/
def aposChar : Char := Char.ofNat 39

/-- The NUL character (code 0), the C string terminator. -/
def nulChar : Char := Char.ofNat 0

/-- Model of libc `fnmatch(pattern, string, 0)` restricted to the `*` and `?`
wildcards (no character classes, which no caller of this code uses).
Returns `true` on a match (the C function returns 0 on a match).  The
fuel argument only forces structural recursion; every recursive call
strictly shrinks `pattern.length + string.length`, so
`fnmatchB` below never runs out. -/
def fnmatchCore : Nat → List Char → List Char → Bool
  | 0, _, _ => false
  | _ + 1, [], s => s.isEmpty
  | fuel + 1, '*' :: ps, s =>
    fnmatchCore fuel ps s ||
      (match s with
       | [] => false
       | _ :: ss => fnmatchCore fuel ('*' :: ps) ss)
  | fuel + 1, '?' :: ps, s =>
    (match s with
     | [] => false
     | _ :: ss => fnmatchCore fuel ps ss)
  | fuel + 1, p :: ps, s =>
    (match s with
     | [] => false
     | c :: ss => p == c && fnmatchCore fuel ps ss)

def fnmatchB (p s : List Char) : Bool :=
  fnmatchCore (p.length + s.length + 1) p s

/-- Namespace substitution entry (`xml_ns` of airscan.h).
Modelled from the spec: an ordered pair of a canonical prefix (`pfx`) and a
URI glob pattern (`uri`); in the reader's cache `uri` is an exact URI
string.  The C sentinel-terminated array is a plain list here. -/
structure xml_ns where
  pfx : List Char
  uri : List Char
deriving DecidableEq

/-- Attribute (`xml_attr` of airscan.h). Modelled from the spec: an ordered
name/value pair. -/
structure xml_attr where
  name : List Char
  value : List Char
deriving DecidableEq

/-- libxml2 parse-tree node (output of the external parser): element flag
(`XML_ELEMENT_NODE` or not), name, optional namespace `(prefix?, href)`,
raw text content (used for non-element nodes), children.  The C `next`
and `parent` links are represented by list structure and by the reader's
ancestor stack. -/
inductive xmlNode : Type where
  | mk : Bool → List Char → Option (Option (List Char) × List Char) → List Char → List xmlNode → xmlNode

def xmlNode.elem : xmlNode → Bool
  | .mk e _ _ _ _ => e

def xmlNode.name : xmlNode → List Char
  | .mk _ n _ _ _ => n

def xmlNode.ns : xmlNode → Option (Option (List Char) × List Char)
  | .mk _ _ x _ _ => x

def xmlNode.rawText : xmlNode → List Char
  | .mk _ _ _ t _ => t

def xmlNode.children : xmlNode → List xmlNode
  | .mk _ _ _ _ c => c

mutual
/-- `xmlNodeGetContent` (libxml2): an element's content is the concatenated
content of its children; a non-element (text) node contributes its raw text. -/
def xmlNodeGetContent : xmlNode → List Char
  | .mk e _ _ t ch => if e then xmlNodeGetContentL ch else t

def xmlNodeGetContentL : List xmlNode → List Char
  | [] => []
  | n :: r => xmlNodeGetContent n ++ xmlNodeGetContentL r
end

/-- `xml_rd_skip_dummy`: skip non-element siblings (the C loop follows the
`next` links while `node->type != XML_ELEMENT_NODE`). -/
def xml_rd_skip_dummy (l : List xmlNode) : List xmlNode :=
  l.dropWhile (fun n => !n.elem)

/-- XML reader state (`struct xml_rd`).  `rest` is the sibling list from the
current node on (`rest.head?` is the C `node` pointer, `[]` is NULL =
end-of-level); `stack` holds, innermost first, the sibling list from each
entered ancestor on (its head is the C `parent` pointer). -/
structure xml_rd where
  subst_rules : Option (List xml_ns)
  rest : List xmlNode
  stack : List (List xmlNode)
  name : Option (List Char)
  path : List Char
  pathlen : List Nat
  text : Option (List Char)
  depth : Nat
  subst_cache : List xml_ns

/-- Write `pathlen[i] := v`.  The C array always has capacity above `i` at
each write (it is doubled on demand) and slots are never read before being
written, so padding with zeros is observationally faithful. -/
def pset (l : List Nat) (i v : Nat) : List Nat :=
  if i < l.length then l.set i v else l ++ List.replicate (i - l.length) 0 ++ [v]

/-- `xml_rd_ns_subst_lookup`: namespace prefix substitution.  If substitution
is not set up or no match was found the original prefix is returned.
Returns the (possibly substituted) prefix together with the updated cache
(the C function mutates `xml->subst_cache` in place). -/
def xml_rd_ns_subst_lookup (rules : Option (List xml_ns)) (cache : List xml_ns)
    (pfx : Option (List Char)) (href : List Char) :
    Option (List Char) × List xml_ns :=
  match rules with
  | none => (pfx, cache)
  | some rs =>
    match cache.find? (fun e => e.uri == href) with
    | some e => (some e.pfx, cache)
    | none =>
      match rs.find? (fun r => fnmatchB r.uri href) with
      | some r => (some r.pfx, cache ++ [{ pfx := r.pfx, uri := href }])
      | none => (pfx, cache)

/-- `xml_rd_node_switched`: called when the current node changes; invalidates
the cached value, truncates the path to the parent's length and re-appends
the (substituted) name of the new current node. -/
def xml_rd_node_switched (s : xml_rd) : xml_rd :=
  let s0 := { s with text := none }
  let pl := if s0.depth ≠ 0 then s0.pathlen.getD (s0.depth - 1) 0 else 0
  let tp := s0.path.take pl
  match s0.rest.head? with
  | none => { s0 with path := tp, name := none }
  | some n =>
    match n.ns with
    | none => { s0 with path := tp ++ n.name, name := some n.name }
    | some pr =>
      let lk := xml_rd_ns_subst_lookup s0.subst_rules s0.subst_cache pr.1 pr.2
      let nm := (match lk.1 with | some p => p ++ [':'] | none => []) ++ n.name
      { s0 with path := tp ++ nm, name := some nm, subst_cache := lk.2 }

/-- `xml_rd_begin` after the external parse: position the cursor at the root
element (`xmlDocGetRootElement`), depth 0, and compute name/path eagerly. -/
def xml_rd_begin_tree (root : xmlNode) (rules : Option (List xml_ns)) : xml_rd :=
  xml_rd_node_switched
    { subst_rules := rules
      rest := xml_rd_skip_dummy [root]
      stack := []
      name := none
      path := []
      pathlen := []
      text := none
      depth := 0
      subst_cache := [] }

/-- `xml_rd_depth`. -/
def xml_rd_depth (s : xml_rd) : Nat := s.depth

/-- `xml_rd_end`: true exactly when the current node is NULL. -/
def xml_rd_end (s : xml_rd) : Bool := s.rest.isEmpty

/-- `xml_rd_next`: shift to the next sibling, skipping dummy nodes. -/
def xml_rd_next (s : xml_rd) : xml_rd :=
  match s.rest with
  | [] => s
  | _ :: r => xml_rd_node_switched { s with rest := xml_rd_skip_dummy r }

/-- `xml_rd_enter`: iterate the current node's children (the C code calls
`xml_rd_skip_dummy` twice, before and after the depth increment). -/
def xml_rd_enter (s : xml_rd) : xml_rd :=
  match s.rest with
  | [] => s
  | n :: r =>
    let s1 := { s with
      pathlen := pset s.pathlen s.depth (s.path.length + 1)
      path := s.path ++ ['/']
      stack := (n :: r) :: s.stack
      rest := xml_rd_skip_dummy n.children }
    xml_rd_node_switched { s1 with depth := s1.depth + 1, rest := xml_rd_skip_dummy s1.rest }

/-- `xml_rd_leave`: return to the parent node (no-op at depth 0).  The empty
stack case corresponds to a NULL `parent` pointer. -/
def xml_rd_leave (s : xml_rd) : xml_rd :=
  if s.depth = 0 then s
  else
    match s.stack with
    | [] => xml_rd_node_switched { s with depth := s.depth - 1, rest := [] }
    | f :: fs => xml_rd_node_switched { s with depth := s.depth - 1, rest := f, stack := fs }

/-- `xml_rd_node_name`. -/
def xml_rd_node_name (s : xml_rd) : Option (List Char) := s.name

/-- `xml_rd_node_path`. -/
def xml_rd_node_path (s : xml_rd) : Option (List Char) :=
  if s.rest.isEmpty then none else some s.path

/-- `g_strstrip`: remove leading and trailing ASCII whitespace in place. -/
def g_strstrip (l : List Char) : List Char :=
  ((l.dropWhile c_isspace).reverse.dropWhile c_isspace).reverse

/-- `xml_rd_node_value`: whitespace-trimmed textual content of the current
node, computed lazily and cached (the C function mutates `xml->text`). -/
def xml_rd_node_value (s : xml_rd) : Option (List Char) × xml_rd :=
  match s.text, s.rest.head? with
  | none, some n =>
    let t := g_strstrip (xmlNodeGetContent n)
    (some t, { s with text := some t })
  | t, _ => (t, s)

/-- glibc `strtoul(s, &end, 10)`: skip C whitespace, accept one optional
sign, then base-10 digits; the value saturates at `ULONG_MAX = 2^64-1` on
overflow (ERANGE), and a leading minus sign negates the value modulo
`2^64`.  Returns `(value, consumed)` where `consumed` is the offset of
`end` from the start of the string (0 when no digits were found, in which
case `end` is reset to the original pointer). -/
def strtoul10 (s : List Char) : Nat × Nat :=
  let w := (s.takeWhile c_isspace).length
  let r1 := s.drop w
  let sgn : Bool × Nat :=
    match r1 with
    | c :: _ => if c = '-' then (true, 1) else if c = '+' then (false, 1) else (false, 0)
    | [] => (false, 0)
  let ds := (r1.drop sgn.2).takeWhile c_isdigit
  if ds.length = 0 then (0, 0)
  else
    let n := ds.foldl (fun a c => a * 10 + (c.toNat - 48)) 0
    let v := if 2 ^ 64 ≤ n then 2 ^ 64 - 1
             else if sgn.1 then (2 ^ 64 - n % 2 ^ 64) % 2 ^ 64 else n
    (v, w + sgn.2 + ds.length)

/-- The C cast `(SANE_Word) v` for `v : unsigned long`.
Modelled from the spec/SANE API: `SANE_Word` is the 32-bit signed target
word; the out-of-range conversion is the usual modular (two's-complement)
one of the target platform. -/
def wordOfUlong (v : Nat) : Int :=
  let r : Nat := v % 2 ^ 32
  if r < 2 ^ 31 then (r : Int) else (r : Int) - 2 ^ 32

/-- The C cast `(unsigned long) w` for a `SANE_Word` value (64-bit
unsigned long, two's complement). -/
def ulongOfWord (i : Int) : Nat := (i % (2 ^ 64 : Int)).toNat

/-- Outcome of `xml_rd_node_value_uint`: the stored `SANE_Word`, the
"invalid numerical value" error, or the fatal `log_assert` (value text
absent, i.e. NULL). -/
inductive UintRes : Type where
  | ok : Int → UintRes
  | valueError : UintRes
  | fatalAssert : UintRes
deriving DecidableEq

/-- `xml_rd_node_value_uint`: parse the current node's value with
`strtoul`; fail if no digits were consumed, if a non-NUL character
follows the parsed part, or if the value does not survive the round trip
through `SANE_Word`. -/
def xml_rd_node_value_uint (s : xml_rd) : UintRes × xml_rd :=
  let r := xml_rd_node_value s
  match r.1 with
  | none => (.fatalAssert, r.2)
  | some t =>
    let p := strtoul10 t
    if p.2 = 0 ∨ p.2 ≠ t.length ∨ p.1 ≠ ulongOfWord (wordOfUlong p.1) then
      (.valueError, r.2)
    else
      (.ok (wordOfUlong p.1), r.2)

theorem xml_rd_node_switched_depth (s : xml_rd) :
    (xml_rd_node_switched s).depth = s.depth := by
  simp only [xml_rd_node_switched]
  split
  · rfl
  · split <;> rfl

theorem xml_rd_next_depth (s : xml_rd) : (xml_rd_next s).depth = s.depth := by
  unfold xml_rd_next
  cases s.rest with
  | nil => rfl
  | cons n r => rw [xml_rd_node_switched_depth]

theorem xml_rd_leave_depth (s : xml_rd) : (xml_rd_leave s).depth = s.depth - 1 ∨ s.depth = 0 := by
  unfold xml_rd_leave
  by_cases h : s.depth = 0
  · right; exact h
  · left
    simp only [h, if_false]
    cases s.stack with
    | nil => rw [xml_rd_node_switched_depth]
    | cons f fs => rw [xml_rd_node_switched_depth]

/-- The `while (xml_rd_end(xml) && xml_rd_depth(xml) > depth + 1)` loop of
`xml_rd_deep_next`: leave, then advance to the next sibling at the parent
level. -/
def xml_rd_deep_next_loop (d : Nat) (s : xml_rd) : xml_rd :=
  if h : xml_rd_end s = true ∧ d + 1 < xml_rd_depth s then
    xml_rd_deep_next_loop d (xml_rd_next (xml_rd_leave s))
  else s
termination_by xml_rd_depth s
decreasing_by
  simp only [xml_rd_depth] at h ⊢
  rw [xml_rd_next_depth]
  rcases xml_rd_leave_depth s with h1 | h1 <;> omega

/-- `xml_rd_deep_next`: always enter the current node, then (while at
end-of-siblings above the floor) leave and advance. -/
def xml_rd_deep_next (s : xml_rd) (d : Nat) : xml_rd :=
  xml_rd_deep_next_loop d (xml_rd_enter s)

/-!  XML writer  -/

/-- Writer node (`struct xml_wr_node`): name, optional text value,
attribute list, children.  During construction children are stored in
reverse insertion order (`xml_wr_add_node` prepends); the `next`/`parent`
links of the C struct are represented by the list structure and the
writer's frame stack. -/
inductive xml_wr_node : Type where
  | mk : List Char → Option (List Char) → List xml_attr → List xml_wr_node → xml_wr_node

def xml_wr_node.name : xml_wr_node → List Char
  | .mk n _ _ _ => n

def xml_wr_node.value : xml_wr_node → Option (List Char)
  | .mk _ v _ _ => v

def xml_wr_node.attrs : xml_wr_node → List xml_attr
  | .mk _ _ a _ => a

def xml_wr_node.children : xml_wr_node → List xml_wr_node
  | .mk _ _ _ c => c

/-- `xml_wr_node_new` (children start empty). -/
def xml_wr_node_new (name : List Char) (value : Option (List Char))
    (attrs : List xml_attr) : xml_wr_node :=
  .mk name value attrs []

/-- Writer state (`struct xml_wr`): the chain from the current node up to
the root, innermost first.  Each frame is the (name, attributes,
reverse-ordered children so far) of one enter-created node; the root frame
is last.  The C `current` pointer is the first frame. -/
structure xml_wr where
  stack : List (List Char × List xml_attr × List xml_wr_node)
  ns : List xml_ns

/-- `xml_wr_begin`: create the root node and make it current. -/
def xml_wr_begin (root : List Char) (ns : List xml_ns) : xml_wr :=
  { stack := [(root, [], [])], ns := ns }

/-- `xml_wr_add_node`: prepend a completed node to the current node's
children (`node->next = current->children; current->children = node`). -/
def xml_wr_add_node (w : xml_wr) (node : xml_wr_node) : xml_wr :=
  match w.stack with
  | [] => w
  | (n, a, cs) :: fs => { w with stack := (n, a, node :: cs) :: fs }

/-- `xml_wr_add_text_attr`. -/
def xml_wr_add_text_attr (w : xml_wr) (name : List Char)
    (value : Option (List Char)) (attrs : List xml_attr) : xml_wr :=
  xml_wr_add_node w (xml_wr_node_new name value attrs)

/-- `xml_wr_add_text`. -/
def xml_wr_add_text (w : xml_wr) (name : List Char) (value : Option (List Char)) : xml_wr :=
  xml_wr_add_text_attr w name value []

/-- Decimal digits of `n`, most significant first (the `sprintf("%u", v)`
loop): accumulator form, peeling the least significant digit. -/
def decDigitChar (n : Nat) : Char :=
  match n with
  | 0 => '0' | 1 => '1' | 2 => '2' | 3 => '3' | 4 => '4'
  | 5 => '5' | 6 => '6' | 7 => '7' | 8 => '8' | _ => '9'

def decDigitsCore (fuel : Nat) (n : Nat) (acc : List Char) : List Char :=
  match fuel with
  | 0 => acc
  | fuel + 1 =>
    if n < 10 then decDigitChar (n % 10) :: acc
    else decDigitsCore fuel (n / 10) (decDigitChar (n % 10) :: acc)

/-- Model of `sprintf(buf, "%u", v)`: base-10 rendering of an unsigned int.
The fuel `n + 1` always suffices since `n / 10` shrinks at each step. -/
def decRepr (n : Nat) : List Char := decDigitsCore (n + 1) n []

/-- `xml_wr_add_uint_attr`: format the value in base 10 (the C parameter
type `unsigned int` reduces the argument modulo `2^32` at the call
boundary). -/
def xml_wr_add_uint_attr (w : xml_wr) (name : List Char) (value : Nat)
    (attrs : List xml_attr) : xml_wr :=
  xml_wr_add_text_attr w name (some (decRepr (value % 2 ^ 32))) attrs

/-- `xml_wr_add_uint`. -/
def xml_wr_add_uint (w : xml_wr) (name : List Char) (value : Nat) : xml_wr :=
  xml_wr_add_uint_attr w name value []

/-- `xml_wr_add_bool_attr`. -/
def xml_wr_add_bool_attr (w : xml_wr) (name : List Char) (value : Bool)
    (attrs : List xml_attr) : xml_wr :=
  xml_wr_add_text_attr w name (some (if value then "true".data else "false".data)) attrs

/-- `xml_wr_enter_attr`: create a child node, add it, and make it current. -/
def xml_wr_enter_attr (w : xml_wr) (name : List Char) (attrs : List xml_attr) : xml_wr :=
  { w with stack := (name, attrs, []) :: w.stack }

/-- `xml_wr_enter`. -/
def xml_wr_enter (w : xml_wr) (name : List Char) : xml_wr :=
  xml_wr_enter_attr w name []

/-- `xml_wr_leave`: back to the parent; `none` models the fatal
`log_assert(xml->current->parent != NULL)` when called on the root. -/
def xml_wr_leave (w : xml_wr) : Option xml_wr :=
  match w.stack with
  | (n, a, cs) :: (pn, pa, pcs) :: fs =>
    some { w with stack := (pn, pa, xml_wr_node.mk n none a cs :: pcs) :: fs }
  | _ => none

/-- `xml_wr_format_indent`: two spaces per level. -/
def xml_wr_format_indent (level : Nat) : List Char :=
  List.replicate (2 * level) ' '

/-- `xml_wr_format_value`: entity-escape a node's text value.  The C loop
reads characters until the NUL terminator, so an (impossible in C) embedded
NUL also stops the output here. -/
def xml_wr_format_value (v : List Char) : List Char :=
  match v with
  | [] => []
  | c :: rest =>
    if c = '&' then "&amp;".data ++ xml_wr_format_value rest
    else if c = '<' then "&lt;".data ++ xml_wr_format_value rest
    else if c = '>' then "&gt;".data ++ xml_wr_format_value rest
    else if c = '"' then "&quot;".data ++ xml_wr_format_value rest
    else if c = aposChar then "&apos;".data ++ xml_wr_format_value rest
    else if c = nulChar then []
    else c :: xml_wr_format_value rest

mutual
/-- `xml_wr_format_node`: serialize one node (and its children) at the
given level.  Note that namespace declarations (level 0 only) and
attribute values are emitted verbatim by `g_string_append_printf`,
without entity escaping; only the text value goes through
`xml_wr_format_value`. -/
def xml_wr_format_node (ns : List xml_ns) (node : xml_wr_node)
    (level : Nat) (compact : Bool) : List Char :=
  match node with
  | .mk name value attrs children =>
    (if compact then [] else xml_wr_format_indent level) ++
    ['<'] ++ name ++
    (if level = 0 then
       ns.flatMap (fun x => " xmlns:".data ++ x.pfx ++ "=\"".data ++ x.uri ++ ['"'])
     else []) ++
    attrs.flatMap (fun a => [' '] ++ a.name ++ "=\"".data ++ a.value ++ ['"']) ++
    ['>'] ++
    (match children with
     | [] =>
       (match value with
        | some v => xml_wr_format_value v
        | none => []) ++
       "</".data ++ name ++ ['>'] ++
       (if compact then [] else ['\n'])
     | c :: cr =>
       (if compact then [] else ['\n']) ++
       xml_wr_format_nodes ns (c :: cr) (level + 1) compact ++
       (if compact then [] else xml_wr_format_indent level) ++
       "</".data ++ name ++ ['>'] ++
       (if compact || level = 0 then [] else ['\n']))

def xml_wr_format_nodes (ns : List xml_ns) (nodes : List xml_wr_node)
    (level : Nat) (compact : Bool) : List Char :=
  match nodes with
  | [] => []
  | n :: rest => xml_wr_format_node ns n level compact ++ xml_wr_format_nodes ns rest level compact
end

mutual
/-- `xml_wr_revert_children`: recursively reverse every node's child list
in place; the loop walks the (reversed-insertion-order) list, reverting
each child and relinking it onto `prev`. -/
def xml_wr_revert_children (node : xml_wr_node) : xml_wr_node :=
  match node with
  | .mk n v a cs => .mk n v a (xml_wr_revert_loop cs [])

def xml_wr_revert_loop (nodes : List xml_wr_node) (prev : List xml_wr_node) :
    List xml_wr_node :=
  match nodes with
  | [] => prev
  | node2 :: next => xml_wr_revert_loop next (xml_wr_revert_children node2 :: prev)
end

/-- Fold the writer's zipper up one ancestor at a time, linking the
already-built node into its parent's child list. -/
def xml_wr_root_go (node : xml_wr_node) :
    List (List Char × List xml_attr × List xml_wr_node) → xml_wr_node
  | [] => node
  | (pn, pa, pcs) :: fs => xml_wr_root_go (.mk pn none pa (node :: pcs)) fs

/-- Collapse the writer's frame stack to the root node (in the C code the
tree is already linked and `xml->root` points at it; the zipper is folded
up here, which yields the same tree). -/
def xml_wr_root_node (stack : List (List Char × List xml_attr × List xml_wr_node)) :
    Option xml_wr_node :=
  match stack with
  | [] => none
  | (n, a, cs) :: fs => some (xml_wr_root_go (.mk n none a cs) fs)

/-- `xml_wr_finish_internal`: emit the XML declaration, revert all child
lists once, and serialize the tree. -/
def xml_wr_finish_internal (w : xml_wr) (compact : Bool) : List Char :=
  "<?xml version=\"1.0\" encoding=\"UTF-8\"?>".data ++
  (if compact then [] else ['\n']) ++
  (match xml_wr_root_node w.stack with
   | none => []
   | some root => xml_wr_format_node w.ns (xml_wr_revert_children root) 0 compact)

/-- `xml_wr_finish`: pretty serialization. -/
def xml_wr_finish (w : xml_wr) : List Char := xml_wr_finish_internal w false

/-- `xml_wr_finish_compact`. -/
def xml_wr_finish_compact (w : xml_wr) : List Char := xml_wr_finish_internal w true

/-- `xml_format`: the stand-alone pretty-printer, parameterized by the
external libxml2 capabilities `xmlParseMemory` (`parseFn`) and
`xmlDocDumpFormatMemory` (`dumpFn`).  Returns the bytes written to the
file and the boolean result. -/
def xml_format (parseFn : List Char → Option xmlNode) (dumpFn : xmlNode → List Char)
    (txt : List Char) : List Char × Bool :=
  match parseFn txt with
  | none => ([], false)
  | some doc =>
    let out := dumpFn doc
    ((if 0 < out.length then out else []), decide (0 < out.length))

/-!  Helper lemmas: characters, decimal rendering, strtoul, casts  -/

theorem digit_not_space {c : Char} (h : c_isdigit c = true) : c_isspace c = false := by
  simp only [c_isdigit, Bool.and_eq_true, decide_eq_true_eq] at h
  simp only [c_isspace, Bool.or_eq_false_iff, Bool.and_eq_false_iff, decide_eq_false_iff_not]
  omega

theorem digit_ne_minus {c : Char} (h : c_isdigit c = true) : c ≠ '-' := by
  intro he; subst he; exact absurd h (by decide)

theorem digit_ne_plus {c : Char} (h : c_isdigit c = true) : c ≠ '+' := by
  intro he; subst he; exact absurd h (by decide)

theorem decDigitChar_isdigit (m : Nat) : c_isdigit (decDigitChar m) = true := by
  unfold decDigitChar
  split <;> decide

theorem decDigitChar_toNat (m : Nat) (h : m < 10) : (decDigitChar m).toNat = 48 + m := by
  interval_cases m <;> decide

theorem decDigitsCore_append (fuel : Nat) : ∀ (n : Nat) (acc : List Char),
    decDigitsCore fuel n acc = decDigitsCore fuel n [] ++ acc := by
  induction fuel with
  | zero => intro n acc; simp [decDigitsCore]
  | succ f ih =>
    intro n acc
    by_cases h : n < 10
    · simp [decDigitsCore, h]
    · simp only [decDigitsCore, h, if_false]
      rw [ih (n / 10) (decDigitChar (n % 10) :: acc), ih (n / 10) [decDigitChar (n % 10)],
        List.append_assoc]
      rfl

theorem decDigitsCore_digits (fuel : Nat) : ∀ (n : Nat) (c : Char),
    c ∈ decDigitsCore fuel n [] → c_isdigit c = true := by
  induction fuel with
  | zero => intro n c hc; simp [decDigitsCore] at hc
  | succ f ih =>
    intro n c hc
    by_cases h : n < 10
    · simp [decDigitsCore, h] at hc
      subst hc; exact decDigitChar_isdigit _
    · simp only [decDigitsCore, h, if_false] at hc
      rw [decDigitsCore_append] at hc
      rcases List.mem_append.mp hc with h1 | h1
      · exact ih _ _ h1
      · simp at h1; subst h1; exact decDigitChar_isdigit _

theorem decDigitsCore_foldl (fuel : Nat) : ∀ (n : Nat), n < fuel →
    (decDigitsCore fuel n []).foldl (fun a c => a * 10 + (c.toNat - 48)) 0 = n := by
  induction fuel with
  | zero => intro n h; omega
  | succ f ih =>
    intro n h
    by_cases h10 : n < 10
    · simp only [decDigitsCore, h10, if_true, List.foldl_cons, List.foldl_nil]
      rw [decDigitChar_toNat _ (by omega)]
      omega
    · simp only [decDigitsCore, h10, if_false]
      rw [decDigitsCore_append, List.foldl_append, ih (n / 10) (by omega)]
      simp only [List.foldl_cons, List.foldl_nil]
      rw [decDigitChar_toNat _ (by omega)]
      omega

theorem decRepr_digits (n : Nat) : ∀ c ∈ decRepr n, c_isdigit c = true := by
  intro c hc; exact decDigitsCore_digits (n + 1) n c hc

theorem decRepr_ne_nil (n : Nat) : decRepr n ≠ [] := by
  unfold decRepr decDigitsCore
  by_cases h : n < 10
  · simp [h]
  · simp only [h, if_false]
    rw [decDigitsCore_append]
    simp

theorem decRepr_foldl (n : Nat) :
    (decRepr n).foldl (fun a c => a * 10 + (c.toNat - 48)) 0 = n :=
  decDigitsCore_foldl (n + 1) n (by omega)

theorem dropWhile_of_all_neg {p : Char → Bool} {l : List Char}
    (h : ∀ c ∈ l, p c = false) : l.dropWhile p = l := by
  cases l with
  | nil => rfl
  | cons c r => exact List.dropWhile_cons_of_neg (by simp [h c (by simp)])

theorem takeWhile_of_all_pos {p : Char → Bool} {l : List Char}
    (h : ∀ c ∈ l, p c = true) : l.takeWhile p = l := by
  induction l with
  | nil => rfl
  | cons c r ih =>
    rw [List.takeWhile_cons_of_pos (h c (by simp))]
    rw [ih (fun x hx => h x (by simp [hx]))]

theorem g_strstrip_of_digits {l : List Char} (h : ∀ c ∈ l, c_isdigit c = true) :
    g_strstrip l = l := by
  unfold g_strstrip
  rw [dropWhile_of_all_neg (fun c hc => digit_not_space (h c hc))]
  rw [dropWhile_of_all_neg (fun c hc => digit_not_space (h c (List.mem_reverse.mp hc)))]
  exact List.reverse_reverse l

theorem strtoul10_digits {ds : List Char} (h1 : ds ≠ [])
    (h2 : ∀ c ∈ ds, c_isdigit c = true) :
    strtoul10 ds =
      ((if 2 ^ 64 ≤ ds.foldl (fun a c => a * 10 + (c.toNat - 48)) 0 then 2 ^ 64 - 1
        else ds.foldl (fun a c => a * 10 + (c.toNat - 48)) 0), ds.length) := by
  cases ds with
  | nil => exact absurd rfl h1
  | cons d r =>
    have hd : c_isdigit d = true := h2 d (by simp)
    unfold strtoul10
    rw [List.takeWhile_cons_of_neg (by simp [digit_not_space hd])]
    simp only [List.length_nil, List.drop_zero]
    rw [if_neg (digit_ne_minus hd), if_neg (digit_ne_plus hd)]
    simp only [List.drop_zero]
    rw [takeWhile_of_all_pos h2]
    simp only [List.length_cons, Nat.add_eq_zero, and_false, if_false]
    simp

theorem roundtrip_lt {v : Nat} (h : v < 2 ^ 31) :
    ulongOfWord (wordOfUlong v) = v := by
  unfold wordOfUlong ulongOfWord
  rw [Nat.mod_eq_of_lt (by omega)]
  rw [if_pos h]
  omega

theorem roundtrip_mid {v : Nat} (h1 : 2 ^ 31 ≤ v) (h2 : v < 2 ^ 64 - 2 ^ 31) :
    ulongOfWord (wordOfUlong v) ≠ v := by
  unfold wordOfUlong ulongOfWord
  by_cases h : v % 2 ^ 32 < 2 ^ 31
  · rw [if_pos h]
    omega
  · rw [if_neg h]
    omega

theorem roundtrip_hi {v : Nat} (h1 : 2 ^ 64 - 2 ^ 31 ≤ v) (h2 : v < 2 ^ 64) :
    ulongOfWord (wordOfUlong v) = v ∧ wordOfUlong v = (v : Int) - 2 ^ 64 := by
  unfold wordOfUlong ulongOfWord
  have hr : v % 2 ^ 32 = v - (2 ^ 64 - 2 ^ 32) := by omega
  rw [hr, if_neg (by omega)]
  constructor
  · omega
  · omega

/-- The outcome of the `strtoul`-and-cast check of `xml_rd_node_value_uint`
on a pure digit string whose numeric value is `n` (a characterization used
by the theorems below, not part of the code model). -/
def uintParseOutcome (n : Nat) : UintRes :=
  if n < 2 ^ 31 then .ok n
  else if n < 2 ^ 64 - 2 ^ 31 then .valueError
  else if n < 2 ^ 64 then .ok ((n : Int) - 2 ^ 64)
  else .ok (-1)

theorem value_uint_of_digits {s : xml_rd} {ds : List Char}
    (hv : (xml_rd_node_value s).1 = some ds) (h1 : ds ≠ [])
    (h2 : ∀ c ∈ ds, c_isdigit c = true) :
    (xml_rd_node_value_uint s).1 =
      uintParseOutcome (ds.foldl (fun a c => a * 10 + (c.toNat - 48)) 0) := by
  have hlen : ds.length ≠ 0 := by
    cases ds with
    | nil => exact absurd rfl h1
    | cons d r => simp
  unfold xml_rd_node_value_uint
  dsimp only
  rw [hv]
  dsimp only
  rw [strtoul10_digits h1 h2]
  rw [apply_ite Prod.fst]
  dsimp only
  set n := ds.foldl (fun a c => a * 10 + (c.toNat - 48)) 0 with hn
  unfold uintParseOutcome
  by_cases hc : 2 ^ 64 ≤ n
  · simp only [if_pos hc]
    have hhi := roundtrip_hi (v := 2 ^ 64 - 1) (by omega) (by omega)
    rw [if_neg, if_neg (by omega), if_neg (by omega), if_neg (by omega)]
    · rw [hhi.2]
      norm_num
    · push_neg
      refine ⟨hlen, rfl, ?_⟩
      rw [hhi.1]
  · simp only [if_neg hc]
    by_cases hlt : n < 2 ^ 31
    · rw [if_neg, if_pos hlt]
      · have := roundtrip_lt hlt
        unfold wordOfUlong at *
        rw [Nat.mod_eq_of_lt (by omega), if_pos hlt]
      · push_neg
        exact ⟨hlen, rfl, (roundtrip_lt hlt).symm ▸ rfl⟩
    · by_cases hmid : n < 2 ^ 64 - 2 ^ 31
      · rw [if_pos (Or.inr (Or.inr (Ne.symm (roundtrip_mid (by omega) hmid)))),
          if_neg hlt, if_pos hmid]
      · have hhi := roundtrip_hi (v := n) (by omega) (by omega)
        rw [if_neg, if_neg hlt, if_neg hmid, if_pos (by omega), hhi.2]
        push_neg
        refine ⟨hlen, rfl, ?_⟩
        rw [hhi.1]

theorem xml_wr_revert_loop_eq (cs : List xml_wr_node) : ∀ acc : List xml_wr_node,
    xml_wr_revert_loop cs acc = (cs.map xml_wr_revert_children).reverse ++ acc := by
  induction cs with
  | nil => intro acc; simp [xml_wr_revert_loop]
  | cons c r ih => intro acc; simp [xml_wr_revert_loop, ih]

/-!  Claim theorems  -/

/-- C10: when the reader cursor is at end-of-document (current node is
NULL), `xml_rd_next` and `xml_rd_enter` leave the entire reader state
unchanged (all fields: depth, node, parent/ancestor stack, name, path,
path-length stack, cached value). -/
theorem claim_C10 (s : xml_rd) (h : s.rest = []) :
    xml_rd_next s = s ∧ xml_rd_enter s = s := by
  refine ⟨?_, ?_⟩ <;> simp only [xml_rd_next, xml_rd_enter, h]

/-- Witness for C10 at a concrete ended reader (a one-element document
after one `next`). -/
theorem claim_C10_witness :
    xml_rd_next (xml_rd_next (xml_rd_begin_tree (xmlNode.mk true "r".data none [] []) none)) =
      xml_rd_next (xml_rd_begin_tree (xmlNode.mk true "r".data none [] []) none) ∧
    xml_rd_enter (xml_rd_next (xml_rd_begin_tree (xmlNode.mk true "r".data none [] []) none)) =
      xml_rd_next (xml_rd_begin_tree (xmlNode.mk true "r".data none [] []) none) :=
  claim_C10 _ rfl

/-- C8: the pretty-printer is atomic: on parse failure it writes nothing
and reports failure; on success it writes the whole dump, failing only
when the dump is empty. -/
theorem claim_C8 (parseFn : List Char → Option xmlNode) (dumpFn : xmlNode → List Char)
    (t : List Char) :
    (parseFn t = none → xml_format parseFn dumpFn t = ([], false)) ∧
    (∀ doc, parseFn t = some doc → dumpFn doc ≠ [] →
      xml_format parseFn dumpFn t = (dumpFn doc, true)) ∧
    (∀ doc, parseFn t = some doc → dumpFn doc = [] →
      xml_format parseFn dumpFn t = ([], false)) := by
  refine ⟨?_, ?_, ?_⟩
  · intro h; simp [xml_format, h]
  · intro doc h hne
    have hl : 0 < (dumpFn doc).length := List.length_pos.mpr hne
    simp [xml_format, h, hl]
  · intro doc h he
    simp [xml_format, h, he]

/-- Witness for C8: a failing parse, a successful dump, and an empty dump. -/
theorem claim_C8_witness :
    xml_format (fun _ => none) (fun _ => "x".data) [] = ([], false) ∧
    xml_format (fun _ => some (xmlNode.mk true "r".data none [] [])) (fun _ => "x".data) [] =
      ("x".data, true) ∧
    xml_format (fun _ => some (xmlNode.mk true "r".data none [] [])) (fun _ => []) [] =
      ([], false) :=
  ⟨(claim_C8 _ _ _).1 rfl,
   (claim_C8 _ _ _).2.1 _ rfl (by decide),
   (claim_C8 _ _ _).2.2 _ rfl rfl⟩

/-- C5: `resolve(uri)` dispatch: with no rule set the document prefix is
returned unchanged; with rules, an exact-URI cache hit wins; otherwise the
first glob-matching rule is taken and a cache entry `(uri, prefix)` is
appended; if no rule matches the document prefix is returned and the
cache is unchanged. -/
theorem claim_C5 (cache : List xml_ns) (pfx : Option (List Char)) (href : List Char) :
    (xml_rd_ns_subst_lookup none cache pfx href = (pfx, cache)) ∧
    (∀ rs e, cache.find? (fun x => x.uri == href) = some e →
      xml_rd_ns_subst_lookup (some rs) cache pfx href = (some e.pfx, cache)) ∧
    (∀ rs r, cache.find? (fun x => x.uri == href) = none →
      rs.find? (fun x => fnmatchB x.uri href) = some r →
      xml_rd_ns_subst_lookup (some rs) cache pfx href =
        (some r.pfx, cache ++ [{ pfx := r.pfx, uri := href }])) ∧
    (∀ rs, cache.find? (fun x => x.uri == href) = none →
      rs.find? (fun x => fnmatchB x.uri href) = none →
      xml_rd_ns_subst_lookup (some rs) cache pfx href = (pfx, cache)) := by
  refine ⟨rfl, ?_, ?_, ?_⟩
  · intro rs e h
    simp only [xml_rd_ns_subst_lookup, h]
  · intro rs r h1 h2
    simp only [xml_rd_ns_subst_lookup, h1, h2]
  · intro rs h1 h2
    simp only [xml_rd_ns_subst_lookup, h1, h2]

/-- Witness for C5: all four dispatch cases at concrete inputs. -/
theorem claim_C5_witness :
    (xml_rd_ns_subst_lookup none [] (some "a".data) "u".data = (some "a".data, [])) ∧
    (xml_rd_ns_subst_lookup (some [{ pfx := "s".data, uri := "z".data }])
       [{ pfx := "p".data, uri := "u".data }] (some "a".data) "u".data =
       (some "p".data, [{ pfx := "p".data, uri := "u".data }])) ∧
    (xml_rd_ns_subst_lookup (some [{ pfx := "s".data, uri := "u*".data }]) [] (some "a".data)
       "u1".data = (some "s".data, [{ pfx := "s".data, uri := "u1".data }])) ∧
    (xml_rd_ns_subst_lookup (some [{ pfx := "s".data, uri := "z*".data }]) [] (some "a".data)
       "u".data = (some "a".data, [])) :=
  ⟨(claim_C5 _ _ _).1,
   (claim_C5 _ _ _).2.1 [{ pfx := "s".data, uri := "z".data }]
     { pfx := "p".data, uri := "u".data } (by decide),
   (claim_C5 _ _ _).2.2.1 [{ pfx := "s".data, uri := "u*".data }]
     { pfx := "s".data, uri := "u*".data } (by decide) (by decide),
   (claim_C5 _ _ _).2.2.2 [{ pfx := "s".data, uri := "z*".data }] (by decide) (by decide)⟩

/-- C3: the `begin("root"), enter("a"), addLeaf("b","x"), leave(),
addLeaf("c","y"), finish(compact)` scenario produces exactly the expected
document, and (second conjunct) the single revert pass reverses every
node's stored (reverse-insertion-order) child list, presenting children
in insertion order. -/
theorem claim_C3 :
    ((xml_wr_leave (xml_wr_add_text (xml_wr_enter (xml_wr_begin "root".data []) "a".data)
        "b".data (some "x".data))).map
        (fun w => xml_wr_finish_compact (xml_wr_add_text w "c".data (some "y".data))) =
      some "<?xml version=\"1.0\" encoding=\"UTF-8\"?><root><a><b>x</b></a><c>y</c></root>".data) ∧
    (∀ n v a cs, xml_wr_revert_children (xml_wr_node.mk n v a cs) =
      xml_wr_node.mk n v a ((cs.map xml_wr_revert_children).reverse)) := by
  constructor
  · decide
  · intro n v a cs
    simp [xml_wr_revert_children, xml_wr_revert_loop_eq]

/-- C7 counterexample: an attribute value containing `"` is emitted
verbatim (raw quote inside the quoted attribute), not entity-escaped as
the claim states. -/
theorem claim_C7_cex :
    xml_wr_finish_compact (xml_wr_add_text_attr (xml_wr_begin "root".data []) "n".data
        (some "v".data) [{ name := "a".data, value := ['"'] }]) =
      "<?xml version=\"1.0\" encoding=\"UTF-8\"?><root><n a=\"\"\">v</n></root>".data ∧
    xml_wr_finish_compact (xml_wr_add_text_attr (xml_wr_begin "root".data []) "n".data
        (some "v".data) [{ name := "a".data, value := ['"'] }]) ≠
      "<?xml version=\"1.0\" encoding=\"UTF-8\"?><root><n a=\"&quot;\">v</n></root>".data :=
  ⟨by decide, by decide⟩

/-- Per-character XML entity substitution (the specification's escaping
table), used to characterize `xml_wr_format_value`. -/
def escChar (c : Char) : List Char :=
  if c = '&' then "&amp;".data
  else if c = '<' then "&lt;".data
  else if c = '>' then "&gt;".data
  else if c = '"' then "&quot;".data
  else if c = aposChar then "&apos;".data
  else [c]

/-- C7 amended: escaping of `&`, `<`, `>`, `"`, `'` applies to text
values (every character up to a NUL is entity-substituted), and the text
`<a&b>"'` serializes through a leaf to the expected escaped document;
attribute values, however, are emitted verbatim (see the counterexample). -/
theorem claim_C7_amended :
    (∀ v : List Char, xml_wr_format_value v =
      (v.takeWhile (fun c => !(c == nulChar))).flatMap escChar) ∧
    (xml_wr_finish_compact (xml_wr_add_text (xml_wr_begin "root".data []) "n".data
        (some "<a&b>\"'".data)) =
      "<?xml version=\"1.0\" encoding=\"UTF-8\"?><root><n>&lt;a&amp;b&gt;&quot;&apos;</n></root>".data) := by
  constructor
  · intro v
    induction v with
    | nil => rfl
    | cons c r ih =>
      simp only [xml_wr_format_value]
      split_ifs with h1 h2 h3 h4 h5 h6
      · subst h1
        rw [List.takeWhile_cons_of_pos (by decide)]
        simp [escChar, ih]
      · subst h2
        rw [List.takeWhile_cons_of_pos (by decide)]
        simp [escChar, ih]
      · subst h3
        rw [List.takeWhile_cons_of_pos (by decide)]
        simp [escChar, ih]
      · subst h4
        rw [List.takeWhile_cons_of_pos (by decide)]
        simp [escChar, ih]
      · subst h5
        rw [List.takeWhile_cons_of_pos (by decide)]
        simp [escChar, ih, h1, h2, h3, h4]
      · subst h6
        rw [List.takeWhile_cons_of_neg (by decide)]
        simp
      · rw [List.takeWhile_cons_of_pos (by simp [h6])]
        simp [escChar, h1, h2, h3, h4, h5, ih]
  · decide

theorem takeWhile_append_stop {p : Char → Bool} {l : List Char} {c : Char} {g : List Char}
    (h : ∀ x ∈ l, p x = true) (hc : p c = false) :
    (l ++ c :: g).takeWhile p = l := by
  induction l with
  | nil => exact List.takeWhile_cons_of_neg (by simp [hc])
  | cons d r ih =>
    rw [List.cons_append, List.takeWhile_cons_of_pos (h d (by simp))]
    rw [ih (fun x hx => h x (by simp [hx]))]

theorem strtoul10_trailing {ds : List Char} {c : Char} {g : List Char} (h1 : ds ≠ [])
    (h2 : ∀ x ∈ ds, c_isdigit x = true) (hc : c_isdigit c = false) :
    (strtoul10 (ds ++ c :: g)).2 = ds.length := by
  cases ds with
  | nil => exact absurd rfl h1
  | cons d r =>
    have hd : c_isdigit d = true := h2 d (by simp)
    unfold strtoul10
    rw [List.cons_append]
    rw [List.takeWhile_cons_of_neg (by simp [digit_not_space hd])]
    simp only [List.length_nil, List.drop_zero]
    rw [if_neg (digit_ne_minus hd), if_neg (digit_ne_plus hd)]
    simp only [List.drop_zero]
    rw [show d :: (r ++ c :: g) = (d :: r) ++ c :: g from rfl]
    rw [takeWhile_append_stop h2 hc]
    simp

theorem strtoul10_nodigit {c : Char} {g : List Char} (hc : c_isdigit c = false)
    (hs : c_isspace c = false) (hp : c ≠ '+') (hm : c ≠ '-') :
    strtoul10 (c :: g) = (0, 0) := by
  unfold strtoul10
  rw [List.takeWhile_cons_of_neg (by simp [hs])]
  simp only [List.length_nil, List.drop_zero]
  rw [if_neg hm, if_neg hp]
  simp only [List.drop_zero]
  rw [List.takeWhile_cons_of_neg (by simp [hc])]
  simp

/-- C6 counterexample: the text `18446744073709551615` (2^64 - 1, which
overflows the 32-bit target word) is accepted by `valueAsUint` and stored
as `-1`, instead of yielding a value error as the claim states. -/
theorem claim_C6_cex :
    (xml_rd_node_value_uint (xml_rd_begin_tree
        (xmlNode.mk true "r".data none []
          [xmlNode.mk false "text".data none "18446744073709551615".data []]) none)).1 =
      UintRes.ok (-1) ∧
    (xml_rd_node_value_uint (xml_rd_begin_tree
        (xmlNode.mk true "r".data none []
          [xmlNode.mk false "text".data none "18446744073709551615".data []]) none)).1 ≠
      UintRes.valueError :=
  ⟨by decide, by decide⟩

/-- C6 amended: `valueAsUint` parses the (whitespace-trimmed) value with
`strtoul`, which also accepts a leading sign; a pure digit string of value
`n` is accepted iff the 64-bit value survives the round trip through the
signed 32-bit `SANE_Word` (accepted for `n < 2^31`, and — wrapping to a
negative word — for `n ≥ 2^64 - 2^31`, with saturation at `2^64 - 1`);
a value error is raised when no digits are parsed or trailing characters
remain; an absent value (cursor at end) is a fatal assertion, not a value
error. -/
theorem claim_C6_amended (s : xml_rd) :
    (∀ ds, s.text = some ds → ds ≠ [] → (∀ c ∈ ds, c_isdigit c = true) →
      (xml_rd_node_value_uint s).1 =
        uintParseOutcome (ds.foldl (fun a c => a * 10 + (c.toNat - 48)) 0)) ∧
    (∀ ds c g, s.text = some (ds ++ c :: g) → ds ≠ [] →
      (∀ x ∈ ds, c_isdigit x = true) → c_isdigit c = false →
      (xml_rd_node_value_uint s).1 = UintRes.valueError) ∧
    (∀ c g, s.text = some (c :: g) → c_isdigit c = false → c_isspace c = false →
      c ≠ '+' → c ≠ '-' → (xml_rd_node_value_uint s).1 = UintRes.valueError) ∧
    (s.text = none → s.rest = [] → (xml_rd_node_value_uint s).1 = UintRes.fatalAssert) := by
  refine ⟨?_, ?_, ?_, ?_⟩
  · intro ds h h1 h2
    have hv : (xml_rd_node_value s).1 = some ds := by
      unfold xml_rd_node_value
      rw [h]
    exact value_uint_of_digits hv h1 h2
  · intro ds c g h h1 h2 hc
    have hv : (xml_rd_node_value s).1 = some (ds ++ c :: g) := by
      unfold xml_rd_node_value
      rw [h]
    unfold xml_rd_node_value_uint
    dsimp only
    rw [hv]
    dsimp only
    rw [apply_ite Prod.fst]
    dsimp only
    rw [if_pos]
    right
    left
    rw [strtoul10_trailing h1 h2 hc]
    simp only [List.length_append, List.length_cons]
    omega
  · intro c g h hc hs hp hm
    have hv : (xml_rd_node_value s).1 = some (c :: g) := by
      unfold xml_rd_node_value
      rw [h]
    unfold xml_rd_node_value_uint
    dsimp only
    rw [hv]
    dsimp only
    rw [apply_ite Prod.fst]
    dsimp only
    rw [if_pos]
    left
    rw [strtoul10_nodigit hc hs hp hm]
  · intro ht hr
    have hv : (xml_rd_node_value s).1 = none := by
      unfold xml_rd_node_value
      rw [ht, show s.rest.head? = none from by rw [hr]; rfl]
    unfold xml_rd_node_value_uint
    dsimp only
    rw [hv]

/-- A concrete reader state with the given cached value text, used by the
witness below. -/
def c6state (t : Option (List Char)) : xml_rd :=
  { subst_rules := none
    rest := []
    stack := []
    name := none
    path := []
    pathlen := []
    text := t
    depth := 0
    subst_cache := [] }

/-- Witness for C6 amended: a pure digit value, a trailing-garbage value,
a non-numeric value, and an absent value, at concrete reader states. -/
theorem claim_C6_amended_witness :
    (xml_rd_node_value_uint (c6state (some "12".data))).1 =
      uintParseOutcome ("12".data.foldl (fun a c => a * 10 + (c.toNat - 48)) 0) ∧
    (xml_rd_node_value_uint (c6state (some "12x".data))).1 = UintRes.valueError ∧
    (xml_rd_node_value_uint (c6state (some "x7".data))).1 = UintRes.valueError ∧
    (xml_rd_node_value_uint (c6state none)).1 = UintRes.fatalAssert :=
  ⟨(claim_C6_amended _).1 "12".data rfl (by decide) (by decide),
   (claim_C6_amended _).2.1 "12".data 'x' [] (by decide) (by decide) (by decide) (by decide),
   (claim_C6_amended _).2.2.1 'x' ['7'] (by decide) (by decide) (by decide) (by decide) (by decide),
   (claim_C6_amended _).2.2.2 rfl rfl⟩

theorem digit_notin_esc {c : Char} (h : c_isdigit c = true) :
    ¬c = '&' ∧ ¬c = '<' ∧ ¬c = '>' ∧ ¬c = '"' ∧ ¬c = aposChar ∧ ¬c = nulChar := by
  refine ⟨?_, ?_, ?_, ?_, ?_, ?_⟩ <;> (intro he; subst he; exact absurd h (by decide))

theorem format_value_of_digits {l : List Char} (h : ∀ c ∈ l, c_isdigit c = true) :
    xml_wr_format_value l = l := by
  induction l with
  | nil => rfl
  | cons c r ih =>
    obtain ⟨h1, h2, h3, h4, h5, h6⟩ := digit_notin_esc (h c (by simp))
    simp only [xml_wr_format_value, if_neg h1, if_neg h2, if_neg h3, if_neg h4, if_neg h5,
      if_neg h6]
    rw [ih (fun x hx => h x (by simp [hx]))]

/-- The parse tree that the external parser produces from the document
rendered by the C1 round-trip scenario: the root element with a single
leaf element `name` whose text content is the decimal rendering of the
written value.  (The external parser is trusted here; the writer-side
conjunct of the theorem pins down the rendered text itself.) -/
def uintLeafDoc (name : List Char) (v : Nat) : xmlNode :=
  .mk true "root".data none []
    [.mk true name none [] [.mk false "text".data none (decRepr (v % 2 ^ 32)) []]]

/-- C1 counterexample: writing `V = 2^31` (representable in the 32-bit
unsigned word accepted by `addUint`) renders `2147483648`, but reading
that node back with `valueAsUint` yields a value error, not `V`. -/
theorem claim_C1_cex :
    xml_wr_finish_compact (xml_wr_add_uint (xml_wr_begin "root".data []) "n".data 2147483648) =
      "<?xml version=\"1.0\" encoding=\"UTF-8\"?><root><n>2147483648</n></root>".data ∧
    (xml_rd_node_value_uint (xml_rd_enter (xml_rd_begin_tree
        (uintLeafDoc "n".data 2147483648) none))).1 = UintRes.valueError :=
  ⟨by decide, by decide⟩

/-- C1 amended: the `addUint`/`valueAsUint` round trip over the rendered
document is exact for every `V < 2^31` (the values representable as a
non-negative `SANE_Word`); for `V` in `[2^31, 2^32)` — still accepted by
`addUint`, whose parameter is a 32-bit unsigned word — reading back
yields a value error instead.  The first conjunct pins down the rendered
document text; the reader conjuncts read the corresponding parse tree. -/
theorem claim_C1_amended (V : Nat) :
    (V < 2 ^ 32 →
      xml_wr_finish_compact (xml_wr_add_uint (xml_wr_begin "root".data []) "n".data V) =
        "<?xml version=\"1.0\" encoding=\"UTF-8\"?><root><n>".data ++ decRepr V ++
          "</n></root>".data) ∧
    (V < 2 ^ 31 →
      (xml_rd_node_value_uint (xml_rd_enter (xml_rd_begin_tree (uintLeafDoc "n".data V)
        none))).1 = UintRes.ok V) ∧
    (2 ^ 31 ≤ V → V < 2 ^ 32 →
      (xml_rd_node_value_uint (xml_rd_enter (xml_rd_begin_tree (uintLeafDoc "n".data V)
        none))).1 = UintRes.valueError) := by
  have hv1 : (xml_rd_node_value (xml_rd_enter (xml_rd_begin_tree (uintLeafDoc "n".data V)
      none))).1 = some (decRepr (V % 2 ^ 32)) := by
    simp [uintLeafDoc, xml_rd_begin_tree, xml_rd_enter, xml_rd_node_switched,
      xml_rd_skip_dummy, pset, xml_rd_node_value, xmlNodeGetContent, xmlNodeGetContentL,
      xmlNode.elem, xmlNode.ns, xmlNode.children, xmlNode.name]
    exact g_strstrip_of_digits (decRepr_digits _)
  have hout : (xml_rd_node_value_uint (xml_rd_enter (xml_rd_begin_tree (uintLeafDoc "n".data V)
      none))).1 = uintParseOutcome (V % 2 ^ 32) := by
    rw [value_uint_of_digits hv1 (decRepr_ne_nil _) (decRepr_digits _), decRepr_foldl]
  refine ⟨?_, ?_, ?_⟩
  · intro hV
    have hfv : xml_wr_format_value (decRepr V) = decRepr V :=
      format_value_of_digits (decRepr_digits V)
    simp [xml_wr_add_uint, xml_wr_add_uint_attr, Nat.mod_eq_of_lt hV, xml_wr_finish_compact,
      xml_wr_finish_internal, xml_wr_begin, xml_wr_add_text_attr, xml_wr_node_new,
      xml_wr_add_node, xml_wr_root_node, xml_wr_root_go, xml_wr_revert_children,
      xml_wr_revert_loop, xml_wr_format_node, xml_wr_format_nodes, hfv]
    rw [Nat.mod_eq_of_lt (by omega : V < 4294967296)]
    exact format_value_of_digits (decRepr_digits V)
  · intro hV
    rw [hout, Nat.mod_eq_of_lt (by omega), uintParseOutcome, if_pos hV]
  · intro h1 h2
    rw [hout, Nat.mod_eq_of_lt (by omega), uintParseOutcome, if_neg (by omega),
      if_pos (by omega)]

/-- Witness for C1 amended: the round trip at `V = 42` and the value
error at `V = 3000000000`. -/
theorem claim_C1_amended_witness :
    (xml_wr_finish_compact (xml_wr_add_uint (xml_wr_begin "root".data []) "n".data 42) =
      "<?xml version=\"1.0\" encoding=\"UTF-8\"?><root><n>".data ++ decRepr 42 ++
        "</n></root>".data) ∧
    ((xml_rd_node_value_uint (xml_rd_enter (xml_rd_begin_tree (uintLeafDoc "n".data 42)
      none))).1 = UintRes.ok 42) ∧
    ((xml_rd_node_value_uint (xml_rd_enter (xml_rd_begin_tree (uintLeafDoc "n".data 3000000000)
      none))).1 = UintRes.valueError) :=
  ⟨(claim_C1_amended 42).1 (by decide),
   (claim_C1_amended 42).2.1 (by decide),
   (claim_C1_amended 3000000000).2.2 (by decide) (by decide)⟩

/-- C9 counterexample: with a configured rule set that does not match the
URI, two resolutions of the same URI within one reader (the second using
the cache produced by the first) fall back to the two occurrences'
document prefixes and return different results, refuting "any two
resolutions of the same namespace URI return the same substituted
prefix". -/
theorem claim_C9_cex :
    (xml_rd_ns_subst_lookup (some [{ pfx := "s".data, uri := "zzz".data }]) []
        (some "a".data) "urn:u".data).1 ≠
      (xml_rd_ns_subst_lookup (some [{ pfx := "s".data, uri := "zzz".data }])
        (xml_rd_ns_subst_lookup (some [{ pfx := "s".data, uri := "zzz".data }]) []
          (some "a".data) "urn:u".data).2
        (some "b".data) "urn:u".data).1 := by decide

/-- C9 amended: every lookup preserves the cache invariants (every entry's
prefix is the one of the first rule glob-matching its URI, and no two
entries share a URI — the cache starts empty, so every reachable cache
satisfies them), and any two resolutions of a URI that some rule matches
return that rule's prefix — the same everywhere — independent of the
cache state and of the document's own prefix.  Resolutions of unmatched
URIs return each occurrence's own document prefix (see counterexample). -/
theorem claim_C9_amended (rs cache : List xml_ns) (pfx : Option (List Char)) (href : List Char)
    (hs : ∀ e ∈ cache, (rs.find? (fun x => fnmatchB x.uri e.uri)).map xml_ns.pfx = some e.pfx)
    (hd : (cache.map xml_ns.uri).Nodup) :
    (∀ e ∈ (xml_rd_ns_subst_lookup (some rs) cache pfx href).2,
      (rs.find? (fun x => fnmatchB x.uri e.uri)).map xml_ns.pfx = some e.pfx) ∧
    (((xml_rd_ns_subst_lookup (some rs) cache pfx href).2).map xml_ns.uri).Nodup ∧
    (∀ r, rs.find? (fun x => fnmatchB x.uri href) = some r →
      (xml_rd_ns_subst_lookup (some rs) cache pfx href).1 = some r.pfx) := by
  cases hcf : cache.find? (fun e => e.uri == href) with
  | some e0 =>
    have he0m : e0 ∈ cache := List.mem_of_find?_eq_some hcf
    have he0u : e0.uri = href := by
      have := List.find?_some hcf
      simpa using this
    refine ⟨?_, ?_, ?_⟩
    · simp only [xml_rd_ns_subst_lookup, hcf]
      exact hs
    · simp only [xml_rd_ns_subst_lookup, hcf]
      exact hd
    · intro r hr
      simp only [xml_rd_ns_subst_lookup, hcf]
      have := hs e0 he0m
      rw [he0u, hr] at this
      simpa using this.symm
  | none =>
    have hnot : ∀ e ∈ cache, e.uri ≠ href := by
      intro e he
      have := List.find?_eq_none.mp hcf e he
      simpa using this
    cases hrf : rs.find? (fun x => fnmatchB x.uri href) with
    | some r0 =>
      refine ⟨?_, ?_, ?_⟩
      · simp only [xml_rd_ns_subst_lookup, hcf, hrf]
        intro e he
        rcases List.mem_append.mp he with h | h
        · exact hs e h
        · simp only [List.mem_singleton] at h
          subst h
          simp [hrf]
      · simp only [xml_rd_ns_subst_lookup, hcf, hrf, List.map_append]
        refine List.Nodup.append hd (List.nodup_singleton _) ?_
        intro x hx hy
        simp only [List.map_cons, List.map_nil, List.mem_singleton] at hy
        subst hy
        rcases List.mem_map.mp hx with ⟨e, he, heq⟩
        exact hnot e he heq
      · intro r hr
        obtain rfl : r0 = r := Option.some.inj hr
        simp only [xml_rd_ns_subst_lookup, hcf, hrf]
    | none =>
      refine ⟨?_, ?_, ?_⟩
      · simp only [xml_rd_ns_subst_lookup, hcf, hrf]
        exact hs
      · simp only [xml_rd_ns_subst_lookup, hcf, hrf]
        exact hd
      · intro r hr
        exact absurd hr (by simp)

/-- Witness for C9 amended at a concrete sound cache and a matching rule. -/
theorem claim_C9_amended_witness :
    (∀ e ∈ (xml_rd_ns_subst_lookup (some [{ pfx := "s".data, uri := "u*".data }])
        [{ pfx := "s".data, uri := "u1".data }] (some "a".data) "u2".data).2,
      (([{ pfx := "s".data, uri := "u*".data }] : List xml_ns).find?
        (fun x => fnmatchB x.uri e.uri)).map xml_ns.pfx = some e.pfx) ∧
    (((xml_rd_ns_subst_lookup (some [{ pfx := "s".data, uri := "u*".data }])
        [{ pfx := "s".data, uri := "u1".data }] (some "a".data) "u2".data).2).map
        xml_ns.uri).Nodup ∧
    (∀ r, ([{ pfx := "s".data, uri := "u*".data }] : List xml_ns).find?
        (fun x => fnmatchB x.uri "u2".data) = some r →
      (xml_rd_ns_subst_lookup (some [{ pfx := "s".data, uri := "u*".data }])
        [{ pfx := "s".data, uri := "u1".data }] (some "a".data) "u2".data).1 = some r.pfx) :=
  claim_C9_amended [{ pfx := "s".data, uri := "u*".data }]
    [{ pfx := "s".data, uri := "u1".data }] (some "a".data) "u2".data
    (by decide) (by decide)

theorem pset_getD_self (l : List Nat) (i v : Nat) : (pset l i v).getD i 0 = v := by
  unfold pset
  by_cases h : i < l.length
  · rw [if_pos h, List.getD_eq_getElem?_getD, List.getElem?_set_self h]
    rfl
  · rw [if_neg h, List.append_assoc, List.getD_eq_getElem?_getD, List.getElem?_append,
      if_neg (by omega), List.getElem?_append,
      if_neg (by simp only [List.length_replicate]; omega)]
    simp

theorem pset_getD_lt (l : List Nat) {i j : Nat} (v : Nat) (h : j < i) :
    (pset l i v).getD j 0 = l.getD j 0 := by
  unfold pset
  by_cases hlen : i < l.length
  · rw [if_pos hlen, List.getD_eq_getElem?_getD, List.getD_eq_getElem?_getD,
      List.getElem?_set_ne (by omega)]
  · rw [if_neg hlen, List.append_assoc, List.getD_eq_getElem?_getD,
      List.getD_eq_getElem?_getD, List.getElem?_append]
    by_cases hj : j < l.length
    · rw [if_pos hj]
    · rw [if_neg hj, List.getElem?_append,
        if_pos (by simp only [List.length_replicate]; omega),
        List.getElem?_eq_none (show l.length ≤ j by omega)]
      have hlt : j - l.length < i - l.length := by omega
      simp [List.getElem?_replicate, hlt]

theorem xml_rd_node_switched_rest (s : xml_rd) :
    (xml_rd_node_switched s).rest = s.rest := by
  simp only [xml_rd_node_switched]
  split
  · rfl
  · split <;> rfl

theorem xml_rd_node_switched_stack (s : xml_rd) :
    (xml_rd_node_switched s).stack = s.stack := by
  simp only [xml_rd_node_switched]
  split
  · rfl
  · split <;> rfl

theorem xml_rd_node_switched_pathlen (s : xml_rd) :
    (xml_rd_node_switched s).pathlen = s.pathlen := by
  simp only [xml_rd_node_switched]
  split
  · rfl
  · split <;> rfl

theorem xml_rd_node_switched_rules (s : xml_rd) :
    (xml_rd_node_switched s).subst_rules = s.subst_rules := by
  simp only [xml_rd_node_switched]
  split
  · rfl
  · split <;> rfl

theorem find?_append_of_some {α : Type} {p : α → Bool} {l l' : List α} {a : α}
    (h : l.find? p = some a) : (l ++ l').find? p = some a := by
  rw [List.find?_append, h]
  rfl

/-- Every lookup either leaves the cache unchanged or appends one entry
for a URI that missed the cache and matched a rule. -/
theorem lookup_snd_cases (rules : Option (List xml_ns)) (cache : List xml_ns)
    (p : Option (List Char)) (h : List Char) :
    (xml_rd_ns_subst_lookup rules cache p h).2 = cache ∨
    ∃ rs r, rules = some rs ∧ cache.find? (fun e => e.uri == h) = none ∧
      rs.find? (fun x => fnmatchB x.uri h) = some r ∧
      (xml_rd_ns_subst_lookup rules cache p h).2 = cache ++ [{ pfx := r.pfx, uri := h }] := by
  cases rules with
  | none => exact Or.inl rfl
  | some rs =>
    cases hcf : cache.find? (fun e => e.uri == h) with
    | some e =>
      left
      simp only [xml_rd_ns_subst_lookup, hcf]
    | none =>
      cases hrf : rs.find? (fun x => fnmatchB x.uri h) with
      | some r =>
        right
        refine ⟨rs, r, rfl, rfl, hrf, ?_⟩
        simp only [xml_rd_ns_subst_lookup, hcf, hrf]
      | none =>
        left
        simp only [xml_rd_ns_subst_lookup, hcf, hrf]

/-- A lookup that did not change the cache returns the same prefix when
repeated after any other single lookup (the memoization is coherent). -/
theorem lookup_fst_stable {rules : Option (List xml_ns)} {cache : List xml_ns}
    {p : Option (List Char)} {h : List Char}
    (hself : (xml_rd_ns_subst_lookup rules cache p h).2 = cache)
    (p' : Option (List Char)) (h' : List Char) :
    (xml_rd_ns_subst_lookup rules ((xml_rd_ns_subst_lookup rules cache p' h').2) p h).1 =
      (xml_rd_ns_subst_lookup rules cache p h).1 := by
  rcases lookup_snd_cases rules cache p' h' with hc | ⟨rs, r', hrs, hmiss', hmatch', hc⟩
  · rw [hc]
  · subst hrs
    rw [hc]
    cases hcf : cache.find? (fun e => e.uri == h) with
    | some e =>
      have h2 : (cache ++ [({ pfx := r'.pfx, uri := h' } : xml_ns)]).find?
          (fun x => x.uri == h) = some e := find?_append_of_some hcf
      simp only [xml_rd_ns_subst_lookup, hcf, h2]
    | none =>
      cases hrf : rs.find? (fun x => fnmatchB x.uri h) with
      | some r =>
        exfalso
        have h3 : (xml_rd_ns_subst_lookup (some rs) cache p h).2 =
            cache ++ [({ pfx := r.pfx, uri := h } : xml_ns)] := by
          simp only [xml_rd_ns_subst_lookup, hcf, hrf]
        rw [hself] at h3
        simpa using congrArg List.length h3
      | none =>
        have hne : ¬h' = h := by
          intro he
          subst he
          rw [hmatch'] at hrf
          exact Option.noConfusion hrf
        have h4 : (cache ++ [({ pfx := r'.pfx, uri := h' } : xml_ns)]).find?
            (fun x => x.uri == h) = none := by
          rw [List.find?_append, hcf]
          simp [hne]
        simp only [xml_rd_ns_subst_lookup, hcf, hrf, h4]

/-- Any single `xml_rd_node_switched` either leaves the substitution cache
unchanged or replaces it by the output cache of one lookup. -/
theorem xml_rd_node_switched_cache_cases (s : xml_rd) :
    (xml_rd_node_switched s).subst_cache = s.subst_cache ∨
    ∃ p' h', (xml_rd_node_switched s).subst_cache =
      (xml_rd_ns_subst_lookup s.subst_rules s.subst_cache p' h').2 := by
  simp only [xml_rd_node_switched]
  split
  · exact Or.inl rfl
  · split
    · exact Or.inl rfl
    · rename_i pr hpr
      exact Or.inr ⟨pr.1, pr.2, rfl⟩

/-- When the recorded parent path length equals the whole path length
(as is the case just after `xml_rd_enter` records it), `xml_rd_node_switched`
only appends to the path: every prefix within the old path survives. -/
theorem xml_rd_node_switched_path_take {s : xml_rd} {m : Nat}
    (hpl : (if s.depth ≠ 0 then s.pathlen.getD (s.depth - 1) 0 else 0) = s.path.length)
    (hm : m ≤ s.path.length) :
    (xml_rd_node_switched s).path.take m = s.path.take m := by
  simp only [xml_rd_node_switched]
  split
  · dsimp only
    rw [hpl, List.take_length]
  · split
    · dsimp only
      rw [hpl, List.take_length, List.take_append_of_le_length hm]
    · dsimp only
      rw [hpl, List.take_length, List.take_append_of_le_length hm]

/-- `xml_rd_enter` on a non-NULL node, written as one `xml_rd_node_switched`
over the explicitly updated state. -/
theorem xml_rd_enter_eq {s : xml_rd} {n : xmlNode} {r : List xmlNode} (h : s.rest = n :: r) :
    xml_rd_enter s = xml_rd_node_switched
      { s with
        pathlen := pset s.pathlen s.depth (s.path.length + 1)
        path := s.path ++ ['/']
        stack := (n :: r) :: s.stack
        rest := xml_rd_skip_dummy (xml_rd_skip_dummy n.children)
        depth := s.depth + 1 } := by
  unfold xml_rd_enter
  rw [h]

/-- The substituted qualified name computed by `xml_rd_node_switched` for
node `n` against reader `s`'s rules and cache. -/
def xml_rd_sub_nm (s : xml_rd) (n : xmlNode) : List Char :=
  match n.ns with
  | none => n.name
  | some pr =>
    (match (xml_rd_ns_subst_lookup s.subst_rules s.subst_cache pr.1 pr.2).1 with
     | some p => p ++ [':']
     | none => []) ++ n.name

/-- The cache state after `xml_rd_node_switched` resolves node `n`. -/
def xml_rd_sub_cache (s : xml_rd) (n : xmlNode) : List xml_ns :=
  match n.ns with
  | none => s.subst_cache
  | some pr => (xml_rd_ns_subst_lookup s.subst_rules s.subst_cache pr.1 pr.2).2

/-- `xml_rd_node_switched` on a state whose current node is `n`, in solved
form. -/
theorem xml_rd_node_switched_spec {s : xml_rd} {n : xmlNode}
    (hh : s.rest.head? = some n) :
    xml_rd_node_switched s =
      { s with
        text := none
        path := s.path.take (if s.depth ≠ 0 then s.pathlen.getD (s.depth - 1) 0 else 0) ++
          xml_rd_sub_nm s n
        name := some (xml_rd_sub_nm s n)
        subst_cache := xml_rd_sub_cache s n } := by
  simp only [xml_rd_node_switched, xml_rd_sub_nm, xml_rd_sub_cache, hh]
  cases hns : n.ns <;> simp only [hns]

/-- C2: entering the current node and then leaving restores the original
depth, current node (and its whole sibling list), ancestor stack, name,
and path exactly.  The two hypotheses hold of every state the reader
operations produce: recomputing the current name/path changes nothing but
the value cache, and the recorded parent path length is within the path. -/
theorem claim_C2 (s : xml_rd) (n : xmlNode) (r : List xmlNode)
    (hrest : s.rest = n :: r)
    (hcons : xml_rd_node_switched s = { s with text := none })
    (hplen : (if s.depth ≠ 0 then s.pathlen.getD (s.depth - 1) 0 else 0) ≤ s.path.length) :
    (xml_rd_leave (xml_rd_enter s)).depth = s.depth ∧
    (xml_rd_leave (xml_rd_enter s)).rest = s.rest ∧
    (xml_rd_leave (xml_rd_enter s)).stack = s.stack ∧
    (xml_rd_leave (xml_rd_enter s)).name = s.name ∧
    (xml_rd_leave (xml_rd_enter s)).path = s.path := by
  -- facts from the consistency hypothesis
  rw [xml_rd_node_switched_spec (show s.rest.head? = some n from by rw [hrest]; rfl)] at hcons
  have hcpath : s.path.take (if s.depth ≠ 0 then s.pathlen.getD (s.depth - 1) 0 else 0) ++
      xml_rd_sub_nm s n = s.path := congrArg xml_rd.path hcons
  have hcname : some (xml_rd_sub_nm s n) = s.name := congrArg xml_rd.name hcons
  have hccache : xml_rd_sub_cache s n = s.subst_cache := congrArg xml_rd.subst_cache hcons
  -- enter
  rw [xml_rd_enter_eq hrest]
  generalize hs2 : ({ s with
      pathlen := pset s.pathlen s.depth (s.path.length + 1)
      path := s.path ++ ['/']
      stack := (n :: r) :: s.stack
      rest := xml_rd_skip_dummy (xml_rd_skip_dummy n.children)
      depth := s.depth + 1 } : xml_rd) = s2
  have h2depth : s2.depth = s.depth + 1 := by rw [← hs2]
  have h2stack : s2.stack = (n :: r) :: s.stack := by rw [← hs2]
  have h2pathlen : s2.pathlen = pset s.pathlen s.depth (s.path.length + 1) := by rw [← hs2]
  have h2path : s2.path = s.path ++ ['/'] := by rw [← hs2]
  have h2rules : s2.subst_rules = s.subst_rules := by rw [← hs2]
  have h2cache : s2.subst_cache = s.subst_cache := by rw [← hs2]
  have hedepth : (xml_rd_node_switched s2).depth = s.depth + 1 := by
    rw [xml_rd_node_switched_depth, h2depth]
  have hestack : (xml_rd_node_switched s2).stack = (n :: r) :: s.stack := by
    rw [xml_rd_node_switched_stack, h2stack]
  have hepathlen : (xml_rd_node_switched s2).pathlen =
      pset s.pathlen s.depth (s.path.length + 1) := by
    rw [xml_rd_node_switched_pathlen, h2pathlen]
  have herules : (xml_rd_node_switched s2).subst_rules = s.subst_rules := by
    rw [xml_rd_node_switched_rules, h2rules]
  have hpl2 : (if s2.depth ≠ 0 then s2.pathlen.getD (s2.depth - 1) 0 else 0) =
      s2.path.length := by
    rw [h2depth, h2pathlen, h2path, if_pos (show s.depth + 1 ≠ 0 from by omega),
      Nat.add_sub_cancel, pset_getD_self]
    simp only [List.length_append, List.length_cons, List.length_nil]
  have hepath_take : (xml_rd_node_switched s2).path.take
      (if s.depth ≠ 0 then s.pathlen.getD (s.depth - 1) 0 else 0) =
      s.path.take (if s.depth ≠ 0 then s.pathlen.getD (s.depth - 1) 0 else 0) := by
    rw [xml_rd_node_switched_path_take hpl2 (by
      rw [h2path]
      simp only [List.length_append, List.length_cons, List.length_nil]
      omega)]
    rw [h2path, List.take_append_of_le_length hplen]
  have hecache : (xml_rd_node_switched s2).subst_cache = s.subst_cache ∨
      ∃ p' h', (xml_rd_node_switched s2).subst_cache =
        (xml_rd_ns_subst_lookup s.subst_rules s.subst_cache p' h').2 := by
    rcases xml_rd_node_switched_cache_cases s2 with hc | ⟨p', h', hc⟩
    · left
      rw [hc, h2cache]
    · right
      rw [h2rules, h2cache] at hc
      exact ⟨p', h', hc⟩
  -- leave
  have hL : xml_rd_leave (xml_rd_node_switched s2) = xml_rd_node_switched
      { xml_rd_node_switched s2 with depth := s.depth, rest := n :: r, stack := s.stack } := by
    unfold xml_rd_leave
    rw [hedepth, hestack]
    simp only [Nat.succ_ne_zero, if_neg, Nat.add_sub_cancel]
    rfl
  rw [hL]
  rw [xml_rd_node_switched_spec (s := { xml_rd_node_switched s2 with
    depth := s.depth, rest := n :: r, stack := s.stack }) rfl]
  -- name equality across the cache evolution
  have hnm : xml_rd_sub_nm { xml_rd_node_switched s2 with
      depth := s.depth, rest := n :: r, stack := s.stack } n = xml_rd_sub_nm s n := by
    unfold xml_rd_sub_nm
    cases hns : n.ns with
    | none => rfl
    | some pr =>
      have hself : (xml_rd_ns_subst_lookup s.subst_rules s.subst_cache pr.1 pr.2).2 =
          s.subst_cache := by
        have := hccache
        unfold xml_rd_sub_cache at this
        rw [hns] at this
        exact this
      dsimp only
      rw [herules]
      rcases hecache with hc | ⟨p', h', hc⟩
      · rw [hc]
      · rw [hc, lookup_fst_stable hself p' h']
  refine ⟨?_, ?_, ?_, ?_, ?_⟩
  · rfl
  · dsimp only
    rw [hrest]
  · rfl
  · dsimp only
    rw [hnm]
    exact hcname
  · dsimp only
    rw [hnm, hepathlen]
    have hgd : (if s.depth ≠ 0 then
        (pset s.pathlen s.depth (s.path.length + 1)).getD (s.depth - 1) 0 else 0) =
        (if s.depth ≠ 0 then s.pathlen.getD (s.depth - 1) 0 else 0) := by
      by_cases hd0 : s.depth = 0
      · simp [hd0]
      · rw [if_pos hd0, if_pos hd0, pset_getD_lt _ _ (by omega)]
    rw [hgd, hepath_take, hcpath]

/-- Witness for C2 at a concrete reader over a childless root element
(entering makes the cursor end-of-siblings at depth 1; leaving restores
the root position). -/
theorem claim_C2_witness :
    (xml_rd_leave (xml_rd_enter (xml_rd_begin_tree (xmlNode.mk true "r".data none [] [])
        none))).depth = (xml_rd_begin_tree (xmlNode.mk true "r".data none [] []) none).depth ∧
    (xml_rd_leave (xml_rd_enter (xml_rd_begin_tree (xmlNode.mk true "r".data none [] [])
        none))).rest = (xml_rd_begin_tree (xmlNode.mk true "r".data none [] []) none).rest ∧
    (xml_rd_leave (xml_rd_enter (xml_rd_begin_tree (xmlNode.mk true "r".data none [] [])
        none))).stack = (xml_rd_begin_tree (xmlNode.mk true "r".data none [] []) none).stack ∧
    (xml_rd_leave (xml_rd_enter (xml_rd_begin_tree (xmlNode.mk true "r".data none [] [])
        none))).name = (xml_rd_begin_tree (xmlNode.mk true "r".data none [] []) none).name ∧
    (xml_rd_leave (xml_rd_enter (xml_rd_begin_tree (xmlNode.mk true "r".data none [] [])
        none))).path = (xml_rd_begin_tree (xmlNode.mk true "r".data none [] []) none).path :=
  claim_C2 (xml_rd_begin_tree (xmlNode.mk true "r".data none [] []) none)
    (xmlNode.mk true "r".data none [] []) [] rfl rfl (by decide)

/-!  Deep traversal (C4): cursor projection and pre-order schedule  -/

/-- The navigation-relevant projection of the reader state: current
sibling list, ancestor stack, depth.  `xml_rd_deep_next` acts on this
projection alone (name/path/value bookkeeping does not feed back into
navigation). -/
structure Cursor where
  rest : List xmlNode
  stack : List (List xmlNode)
  depth : Nat

def projC (s : xml_rd) : Cursor := ⟨s.rest, s.stack, s.depth⟩

def cEnter (c : Cursor) : Cursor :=
  match c.rest with
  | [] => c
  | n :: r =>
    ⟨xml_rd_skip_dummy (xml_rd_skip_dummy n.children), (n :: r) :: c.stack, c.depth + 1⟩

def cNext (c : Cursor) : Cursor :=
  match c.rest with
  | [] => c
  | _ :: r => ⟨xml_rd_skip_dummy r, c.stack, c.depth⟩

def cLeave (c : Cursor) : Cursor :=
  if c.depth = 0 then c
  else
    match c.stack with
    | [] => ⟨[], c.stack, c.depth - 1⟩
    | f :: fs => ⟨f, fs, c.depth - 1⟩

theorem cLeave_depth (c : Cursor) : (cLeave c).depth = c.depth - 1 ∨ c.depth = 0 := by
  unfold cLeave
  by_cases h : c.depth = 0
  · right; exact h
  · left
    simp only [h, if_false]
    cases c.stack <;> rfl

theorem cNext_depth (c : Cursor) : (cNext c).depth = c.depth := by
  unfold cNext
  cases c.rest <;> rfl

def cLoop (d : Nat) (c : Cursor) : Cursor :=
  if h : c.rest.isEmpty = true ∧ d + 1 < c.depth then
    cLoop d (cNext (cLeave c))
  else c
termination_by c.depth
decreasing_by
  rw [cNext_depth]
  rcases cLeave_depth c with h1 | h1 <;> omega

def cDeep (d : Nat) (c : Cursor) : Cursor := cLoop d (cEnter c)

theorem projC_node_switched (s : xml_rd) : projC (xml_rd_node_switched s) = projC s := by
  unfold projC
  rw [xml_rd_node_switched_rest, xml_rd_node_switched_stack, xml_rd_node_switched_depth]

theorem projC_enter (s : xml_rd) : projC (xml_rd_enter s) = cEnter (projC s) := by
  cases h : s.rest with
  | nil =>
    simp [xml_rd_enter, cEnter, projC, h]
  | cons n r =>
    rw [xml_rd_enter_eq h]
    simp [cEnter, projC, h, projC_node_switched, xml_rd_node_switched_rest,
      xml_rd_node_switched_stack, xml_rd_node_switched_depth]

theorem projC_next (s : xml_rd) : projC (xml_rd_next s) = cNext (projC s) := by
  cases h : s.rest with
  | nil =>
    simp [xml_rd_next, cNext, projC, h]
  | cons n r =>
    simp [xml_rd_next, cNext, projC, h, xml_rd_node_switched_rest,
      xml_rd_node_switched_stack, xml_rd_node_switched_depth]

theorem projC_leave (s : xml_rd) : projC (xml_rd_leave s) = cLeave (projC s) := by
  by_cases h : s.depth = 0
  · simp [xml_rd_leave, cLeave, projC, h]
  · cases hs : s.stack with
    | nil =>
      simp [xml_rd_leave, cLeave, projC, h, hs, xml_rd_node_switched_rest,
        xml_rd_node_switched_stack, xml_rd_node_switched_depth]
    | cons f fs =>
      simp [xml_rd_leave, cLeave, projC, h, hs, xml_rd_node_switched_rest,
        xml_rd_node_switched_stack, xml_rd_node_switched_depth]

theorem projC_deep_loop (d : Nat) (s : xml_rd) :
    projC (xml_rd_deep_next_loop d s) = cLoop d (projC s) := by
  have H : ∀ k (s : xml_rd), s.depth ≤ k →
      projC (xml_rd_deep_next_loop d s) = cLoop d (projC s) := by
    intro k
    induction k with
    | zero =>
      intro s hs
      rw [xml_rd_deep_next_loop, cLoop]
      rw [dif_neg (by rw [xml_rd_depth]; omega), dif_neg (by unfold projC; dsimp; omega)]
    | succ k ih =>
      intro s hs
      rw [xml_rd_deep_next_loop, cLoop]
      by_cases hc : xml_rd_end s = true ∧ d + 1 < xml_rd_depth s
      · rw [dif_pos hc, dif_pos (by exact hc)]
        rw [ih (xml_rd_next (xml_rd_leave s)) (by
          rw [xml_rd_next_depth]
          rcases xml_rd_leave_depth s with h1 | h1
          · rw [xml_rd_depth] at hc; omega
          · rw [xml_rd_depth] at hc; omega)]
        rw [projC_next, projC_leave]
      · rw [dif_neg hc, dif_neg (by exact hc)]
  exact H s.depth s (le_refl _)

theorem projC_deep_next (s : xml_rd) :
    projC (xml_rd_deep_next s 0) = cDeep 0 (projC s) := by
  unfold xml_rd_deep_next cDeep
  rw [projC_deep_loop, projC_enter]

mutual
/-- Document-order (pre-order) listing of the element nodes of a subtree:
an element is listed before its children; non-element nodes contribute
nothing. -/
def preorderElems (n : xmlNode) : List xmlNode :=
  match n with
  | .mk e nm ns ct ch => if e then .mk e nm ns ct ch :: preorderElemsL ch else []

def preorderElemsL (l : List xmlNode) : List xmlNode :=
  match l with
  | [] => []
  | n :: r => preorderElems n ++ preorderElemsL r
end

theorem preorderElems_of_elem {n : xmlNode} (h : n.elem = true) :
    preorderElems n = n :: preorderElemsL n.children := by
  cases n with
  | mk e nm ns ct ch =>
    simp only [xmlNode.elem] at h
    simp [preorderElems, h, xmlNode.children]

theorem preorderElems_of_dummy {n : xmlNode} (h : n.elem = false) :
    preorderElems n = [] := by
  cases n with
  | mk e nm ns ct ch =>
    simp only [xmlNode.elem] at h
    simp [preorderElems, h]

theorem preorderElemsL_skip_dummy (l : List xmlNode) :
    preorderElemsL (xml_rd_skip_dummy l) = preorderElemsL l := by
  induction l with
  | nil => rfl
  | cons n r ih =>
    by_cases h : n.elem = true
    · unfold xml_rd_skip_dummy
      rw [List.dropWhile_cons_of_neg (by simp [h])]
    · rw [Bool.not_eq_true] at h
      unfold xml_rd_skip_dummy
      rw [List.dropWhile_cons_of_pos (by simp [h])]
      unfold xml_rd_skip_dummy at ih
      rw [ih]
      rw [show preorderElemsL (n :: r) = preorderElems n ++ preorderElemsL r from rfl,
        preorderElems_of_dummy h, List.nil_append]

theorem skip_dummy_head_elem {l : List xmlNode} {n : xmlNode} {r : List xmlNode}
    (h : xml_rd_skip_dummy l = n :: r) : n.elem = true := by
  have := List.head?_dropWhile_not (fun x => !x.elem) l
  unfold xml_rd_skip_dummy at h
  rw [h] at this
  simpa using this

theorem skip_dummy_idem (l : List xmlNode) :
    xml_rd_skip_dummy (xml_rd_skip_dummy l) = xml_rd_skip_dummy l := by
  cases h : xml_rd_skip_dummy l with
  | nil => rfl
  | cons n r =>
    have hn := skip_dummy_head_elem h
    unfold xml_rd_skip_dummy
    rw [List.dropWhile_cons_of_neg (by simp [hn])]

/-- Pending pre-order work recorded in the ancestor stack: the first `k`
frames (those the floor allows the loop to pop) each contribute the
subtrees of the siblings following the entered ancestor. -/
def schedFrames : List (List xmlNode) → Nat → List xmlNode
  | _, 0 => []
  | [], _ + 1 => []
  | g :: gs, k + 1 => preorderElemsL g.tail ++ schedFrames gs k

/-- All element nodes the `deepNext` traversal with floor `f` will still
visit from cursor `c`, in order. -/
def sched (f : Nat) (c : Cursor) : List xmlNode :=
  preorderElemsL c.rest ++ schedFrames c.stack (c.depth - (f + 1))

/-- Invariant of the traversal cursor between `deepNext` calls (holding
from the first call on): the depth stays above the floor, the poppable
frames exist and are nonempty, the sibling list is dummy-normalized, and
an end-of-siblings cursor only occurs parked at depth `floor + 1`. -/
structure CursorInv (f : Nat) (c : Cursor) : Prop where
  depth_ge : f + 1 ≤ c.depth
  stack_len : c.depth - (f + 1) ≤ c.stack.length
  frames_ne : ∀ g ∈ c.stack.take (c.depth - (f + 1)), g ≠ []
  rest_skip : xml_rd_skip_dummy c.rest = c.rest
  parked : c.rest = [] → c.depth = f + 1

theorem cLoop_spec (f : Nat) : ∀ c : Cursor, f + 1 ≤ c.depth →
    c.depth - (f + 1) ≤ c.stack.length →
    (∀ g ∈ c.stack.take (c.depth - (f + 1)), g ≠ []) →
    xml_rd_skip_dummy c.rest = c.rest →
    CursorInv f (cLoop f c) ∧ sched f (cLoop f c) = sched f c := by
  have H : ∀ m (c : Cursor), c.depth ≤ m → f + 1 ≤ c.depth →
      c.depth - (f + 1) ≤ c.stack.length →
      (∀ g ∈ c.stack.take (c.depth - (f + 1)), g ≠ []) →
      xml_rd_skip_dummy c.rest = c.rest →
      CursorInv f (cLoop f c) ∧ sched f (cLoop f c) = sched f c := by
    intro m
    induction m with
    | zero =>
      intro c hm hge _ _ _
      omega
    | succ m ih =>
      intro c hm hge hlen hfr hsk
      rw [cLoop]
      by_cases hc : c.rest.isEmpty = true ∧ f + 1 < c.depth
      · rw [dif_pos hc]
        obtain ⟨hre, hdg⟩ := hc
        have hre' : c.rest = [] := by simpa [List.isEmpty_iff] using hre
        obtain ⟨k', hk'⟩ : ∃ k', c.depth - (f + 1) = k' + 1 := ⟨c.depth - (f + 1) - 1, by omega⟩
        cases hs : c.stack with
        | nil =>
          exfalso
          rw [hs] at hlen
          simp at hlen
          omega
        | cons g gs =>
          have hgne : g ≠ [] := by
            apply hfr g
            rw [hs, hk', List.take_succ_cons]
            exact List.mem_cons_self _ _
          cases hg : g with
          | nil => exact absurd hg hgne
          | cons gm gt =>
            have hstep : cNext (cLeave c) = ⟨xml_rd_skip_dummy gt, gs, c.depth - 1⟩ := by
              unfold cLeave cNext
              rw [if_neg (by omega), hs, hg]
            rw [hstep]
            have hres := ih ⟨xml_rd_skip_dummy gt, gs, c.depth - 1⟩
              (by dsimp; omega) (by dsimp; omega)
              (by
                dsimp
                rw [hs] at hlen
                simp only [List.length_cons] at hlen
                omega)
              (by
                dsimp
                have : c.depth - 1 - (f + 1) = k' := by omega
                rw [this]
                intro g2 hg2
                apply hfr g2
                rw [hs, hk', List.take_succ_cons]
                exact List.mem_cons_of_mem _ hg2)
              (by dsimp; exact skip_dummy_idem gt)
            refine ⟨hres.1, ?_⟩
            rw [hres.2]
            unfold sched
            dsimp
            rw [hre', hs, hg, hk']
            have h2 : c.depth - 1 - (f + 1) = k' := by omega
            rw [h2]
            rw [show schedFrames ((gm :: gt) :: gs) (k' + 1) =
              preorderElemsL (gm :: gt).tail ++ schedFrames gs k' from rfl]
            rw [preorderElemsL_skip_dummy]
            simp [show preorderElemsL ([] : List xmlNode) = [] from rfl]
      · rw [dif_neg hc]
        refine ⟨⟨hge, hlen, hfr, hsk, ?_⟩, rfl⟩
        intro hre
        have : ¬f + 1 < c.depth := by
          intro hlt
          exact hc ⟨by rw [hre]; rfl, hlt⟩
        omega
  intro c hge hlen hfr hsk
  exact H c.depth c (le_refl _) hge hlen hfr hsk

theorem cDeep_spec (f : Nat) (c : Cursor) (hinv : CursorInv f c) :
    CursorInv f (cDeep f c) ∧ sched f (cDeep f c) = (sched f c).tail ∧
    c.rest.head? = (sched f c).head? := by
  cases hr : c.rest with
  | nil =>
    have hd := hinv.parked hr
    have hsched : sched f c = [] := by
      unfold sched
      rw [hr, hd, Nat.sub_self]
      cases c.stack <;> rfl
    have hdc : cDeep f c = c := by
      unfold cDeep
      have h1 : cEnter c = c := by
        unfold cEnter
        rw [hr]
      rw [h1, cLoop, dif_neg (by rw [hd]; simp)]
    refine ⟨by rw [hdc]; exact hinv, by rw [hdc, hsched]; rfl, by rw [hsched]⟩
  | cons n r =>
    have hne : n.elem = true := by
      have := hinv.rest_skip
      rw [hr] at this
      exact skip_dummy_head_elem this
    have hce : cEnter c =
        ⟨xml_rd_skip_dummy (xml_rd_skip_dummy n.children), (n :: r) :: c.stack,
          c.depth + 1⟩ := by
      unfold cEnter
      rw [hr]
    have hk : c.depth + 1 - (f + 1) = (c.depth - (f + 1)) + 1 := by
      have := hinv.depth_ge
      omega
    obtain ⟨hinv', hsch'⟩ := cLoop_spec f
      ⟨xml_rd_skip_dummy (xml_rd_skip_dummy n.children), (n :: r) :: c.stack, c.depth + 1⟩
      (by dsimp; have := hinv.depth_ge; omega)
      (by
        dsimp
        have := hinv.stack_len
        omega)
      (by
        dsimp
        rw [hk, List.take_succ_cons]
        intro g hg
        rcases List.mem_cons.mp hg with hg1 | hg1
        · rw [hg1]; simp
        · exact hinv.frames_ne g hg1)
      (by dsimp; exact skip_dummy_idem _)
    have hdc : cDeep f c = cLoop f
        ⟨xml_rd_skip_dummy (xml_rd_skip_dummy n.children), (n :: r) :: c.stack,
          c.depth + 1⟩ := by
      unfold cDeep
      rw [hce]
    refine ⟨by rw [hdc]; exact hinv', ?_, ?_⟩
    · rw [hdc, hsch']
      unfold sched
      dsimp
      rw [hr, hk]
      rw [show schedFrames ((n :: r) :: c.stack) ((c.depth - (f + 1)) + 1) =
        preorderElemsL (n :: r).tail ++ schedFrames c.stack (c.depth - (f + 1)) from rfl]
      rw [preorderElemsL_skip_dummy, preorderElemsL_skip_dummy]
      rw [show preorderElemsL (n :: r) = preorderElems n ++ preorderElemsL r from rfl,
        preorderElems_of_elem hne]
      simp [List.append_assoc]
    · unfold sched
      rw [hr]
      rw [show preorderElemsL (n :: r) = preorderElems n ++ preorderElemsL r from rfl,
        preorderElems_of_elem hne]
      rfl

def citer (f : Nat) : Nat → Cursor → Cursor
  | 0, c => c
  | m + 1, c => citer f m (cDeep f c)

def cvisits (f : Nat) : Nat → Cursor → List (Option xmlNode)
  | 0, _ => []
  | m + 1, c => c.rest.head? :: cvisits f m (cDeep f c)

theorem citer_inv (f : Nat) : ∀ (m : Nat) (c : Cursor), CursorInv f c →
    CursorInv f (citer f m c) := by
  intro m
  induction m with
  | zero => intro c h; exact h
  | succ m ih => intro c h; exact ih (cDeep f c) (cDeep_spec f c h).1

theorem cvisits_sched (f : Nat) : ∀ (m : Nat) (c : Cursor), CursorInv f c →
    m ≤ (sched f c).length →
    cvisits f m c = ((sched f c).take m).map some ∧
    CursorInv f (citer f m c) ∧ sched f (citer f m c) = (sched f c).drop m := by
  intro m
  induction m with
  | zero =>
    intro c hinv _
    exact ⟨rfl, hinv, rfl⟩
  | succ m ih =>
    intro c hinv hm
    obtain ⟨hinv2, hsch, hhd⟩ := cDeep_spec f c hinv
    cases hsc : sched f c with
    | nil =>
      rw [hsc] at hm
      simp at hm
    | cons a t =>
      have hscd : sched f (cDeep f c) = t := by
        rw [hsch, hsc]
        rfl
      obtain ⟨h1, h2, h3⟩ := ih (cDeep f c) hinv2
        (by rw [hscd]; rw [hsc] at hm; simpa using hm)
      refine ⟨?_, h2, ?_⟩
      · show c.rest.head? :: cvisits f m (cDeep f c) = _
        rw [hhd, hsc, h1, hscd]
        rfl
      · show sched f (citer f m (cDeep f c)) = _
        rw [h3, hscd]
        rfl

theorem sched_nil_rest {f : Nat} {c : Cursor} (hinv : CursorInv f c)
    (h : sched f c = []) : c.rest = [] := by
  cases hr : c.rest with
  | nil => rfl
  | cons n r =>
    exfalso
    have hne : n.elem = true := by
      have hsk := hinv.rest_skip
      rw [hr] at hsk
      exact skip_dummy_head_elem hsk
    unfold sched at h
    rw [hr, show preorderElemsL (n :: r) = preorderElems n ++ preorderElemsL r from rfl,
      preorderElems_of_elem hne] at h
    simp at h

/-- Iterated `xml_rd_deep_next` with floor 0: the traversal pattern of the
callers, which start at the document root and call `deepNext` repeatedly. -/
def rd_iter : Nat → xml_rd → xml_rd
  | 0, s => s
  | m + 1, s => rd_iter m (xml_rd_deep_next s 0)

/-- The current nodes of the first `m` states of the floor-0 traversal
(`none` when a state is at end-of-siblings). -/
def rd_visits : Nat → xml_rd → List (Option xmlNode)
  | 0, _ => []
  | m + 1, s => s.rest.head? :: rd_visits m (xml_rd_deep_next s 0)

theorem projC_iter : ∀ (m : Nat) (s : xml_rd),
    projC (rd_iter m s) = citer 0 m (projC s) := by
  intro m
  induction m with
  | zero => intro s; rfl
  | succ m ih =>
    intro s
    show projC (rd_iter m (xml_rd_deep_next s 0)) = citer 0 m (cDeep 0 (projC s))
    rw [ih, projC_deep_next]

theorem rd_visits_eq : ∀ (m : Nat) (s : xml_rd),
    rd_visits m s = cvisits 0 m (projC s) := by
  intro m
  induction m with
  | zero => intro s; rfl
  | succ m ih =>
    intro s
    show s.rest.head? :: rd_visits m (xml_rd_deep_next s 0) =
      (projC s).rest.head? :: cvisits 0 m (cDeep 0 (projC s))
    rw [ih, projC_deep_next]
    rfl

/-- **C4.** `deepNext`, started at the document root with floor depth 0
(the root's own depth), visits every element node exactly once, in
document order: over the first `N` states of the traversal, where `N` is
the number of element nodes, the current nodes are exactly the pre-order
listing of the document, after which the traversal is at its end; and no
state after the first call ever reports a depth below `floor + 1`, hence
never below the floor depth it was given. -/
theorem claim_C4 (doc : xmlNode) (rules : Option (List xml_ns)) (h : doc.elem = true) :
    rd_visits (preorderElems doc).length (xml_rd_begin_tree doc rules) =
      (preorderElems doc).map some ∧
    xml_rd_end (rd_iter (preorderElems doc).length (xml_rd_begin_tree doc rules)) = true ∧
    (∀ i, 1 ≤ i → 1 ≤ xml_rd_depth (rd_iter i (xml_rd_begin_tree doc rules))) := by
  have hsd : xml_rd_skip_dummy [doc] = [doc] := by
    unfold xml_rd_skip_dummy
    rw [List.dropWhile_cons_of_neg (by simp [h])]
  have hc0 : projC (xml_rd_begin_tree doc rules) = ⟨[doc], [], 0⟩ := by
    unfold xml_rd_begin_tree
    rw [projC_node_switched]
    unfold projC
    dsimp
    rw [hsd]
  obtain ⟨hinvL, hschL⟩ := cLoop_spec 0
    ⟨xml_rd_skip_dummy (xml_rd_skip_dummy doc.children), [[doc]], 1⟩
    (le_refl 1) (by simp) (by simp) (by dsimp; exact skip_dummy_idem _)
  have hdeep : cDeep 0 ⟨[doc], [], 0⟩ =
      cLoop 0 ⟨xml_rd_skip_dummy (xml_rd_skip_dummy doc.children), [[doc]], 1⟩ := rfl
  have hsc1 : sched 0 ⟨xml_rd_skip_dummy (xml_rd_skip_dummy doc.children), [[doc]], 1⟩ =
      preorderElemsL doc.children := by
    unfold sched
    dsimp
    rw [preorderElemsL_skip_dummy, preorderElemsL_skip_dummy]
    simp [schedFrames]
  have hinvD : CursorInv 0 (cDeep 0 ⟨[doc], [], 0⟩) := by rw [hdeep]; exact hinvL
  have hschD : sched 0 (cDeep 0 ⟨[doc], [], 0⟩) = preorderElemsL doc.children := by
    rw [hdeep, hschL, hsc1]
  have hN : (preorderElems doc).length = (preorderElemsL doc.children).length + 1 := by
    rw [preorderElems_of_elem h]
    rfl
  obtain ⟨hv, hiv, hss⟩ := cvisits_sched 0 (preorderElemsL doc.children).length
    (cDeep 0 ⟨[doc], [], 0⟩) hinvD (by rw [hschD])
  refine ⟨?_, ?_, ?_⟩
  · rw [rd_visits_eq, hc0, hN, preorderElems_of_elem h]
    show some doc :: cvisits 0 (preorderElemsL doc.children).length (cDeep 0 ⟨[doc], [], 0⟩) = _
    rw [hv, hschD, List.take_length]
    rfl
  · have h1 : (rd_iter (preorderElems doc).length (xml_rd_begin_tree doc rules)).rest =
        (citer 0 (preorderElems doc).length ⟨[doc], [], 0⟩).rest := by
      have hp := projC_iter (preorderElems doc).length (xml_rd_begin_tree doc rules)
      rw [hc0] at hp
      exact congrArg Cursor.rest hp
    have h2 : citer 0 (preorderElems doc).length (⟨[doc], [], 0⟩ : Cursor) =
        citer 0 (preorderElemsL doc.children).length (cDeep 0 ⟨[doc], [], 0⟩) := by
      rw [hN]
      rfl
    have h3 : (citer 0 (preorderElemsL doc.children).length
        (cDeep 0 ⟨[doc], [], 0⟩)).rest = [] := by
      apply sched_nil_rest hiv
      rw [hss, hschD, List.drop_length]
    unfold xml_rd_end
    rw [h1, h2, h3]
    rfl
  · intro i hi
    obtain ⟨j, rfl⟩ : ∃ j, i = j + 1 := ⟨i - 1, by omega⟩
    have hp : xml_rd_depth (rd_iter (j + 1) (xml_rd_begin_tree doc rules)) =
        (citer 0 (j + 1) (⟨[doc], [], 0⟩ : Cursor)).depth := by
      have := projC_iter (j + 1) (xml_rd_begin_tree doc rules)
      rw [hc0] at this
      exact congrArg Cursor.depth this
    rw [hp]
    show 1 ≤ (citer 0 j (cDeep 0 ⟨[doc], [], 0⟩)).depth
    exact (citer_inv 0 j (cDeep 0 ⟨[doc], [], 0⟩) hinvD).depth_ge

/-- A small concrete document for exercising the traversal theorem: a root
with a dummy text child, a nested element, and a trailing element. -/
def c4doc : xmlNode :=
  xmlNode.mk true "r".data none []
    [xmlNode.mk false "text".data none "x".data [],
     xmlNode.mk true "a".data none [] [xmlNode.mk true "b".data none [] []],
     xmlNode.mk true "c".data none [] []]

/-- The C4 theorem at a concrete document: hypothesis and conclusion at
`c4doc` with no substitution rules. -/
theorem claim_C4_witness :
    c4doc.elem = true ∧
    (rd_visits (preorderElems c4doc).length (xml_rd_begin_tree c4doc none) =
        (preorderElems c4doc).map some ∧
      xml_rd_end (rd_iter (preorderElems c4doc).length (xml_rd_begin_tree c4doc none)) = true ∧
      (∀ i, 1 ≤ i → 1 ≤ xml_rd_depth (rd_iter i (xml_rd_begin_tree c4doc none)))) :=
  ⟨rfl, claim_C4 c4doc none rfl⟩
